import Mathlib

/-!
Verification development for the generated-program repair & execution pipeline
of `app.py` (FastAPI quiz service).

The pure string-processing functions (`repair_code`, the repair steps inside
`run_code_safely`, `extract_valid_code_blocks`, `validate_python`) are embedded
as executable functions over `List Char` mirroring the Python source line by
line, including the exact regular-expression semantics of the two `re.sub`
calls and the fenced-block `re.findall`.  Python strings are modelled as
`List Char` (wrapped in `String` at the interfaces); `str.replace`,
`str.strip`, `str.splitlines` and `"\n".join` are reproduced with their
CPython semantics (left-to-right non-overlapping replacement, whitespace
trimming, universal-newline splitting that drops a trailing terminator).

Effectful collaborators (the `ast.parse` call, the LLM HTTP call, `exec`, and
the awaited entry point) are passed in as explicit parameters/oracles, and the
control flow of `process_request` (lines 206-295) is embedded as a small-step
machine over named program counters so that the reachability of each source
line is a provable statement rather than a modelling assumption.
-/

namespace QuizPipeline

/-! ## Character classes

`isWsChar` is the ASCII fragment of Python's `\s` / `str.strip` whitespace;
`isWordDotChar` is the character class `[\w.]` of the repair regexes and
`isWordChar` is `\w` (ASCII fragment). -/

def isWsChar (c : Char) : Bool :=
  c = ' ' || c = '\t' || c = '\n' || c = '\r' || c = '\x0b' || c = '\x0c'

def isWordDotChar (c : Char) : Bool :=
  c.isAlphanum || c = '_' || c = '.'

def isWordChar (c : Char) : Bool :=
  c.isAlphanum || c = '_'

/-- Line-break characters recognised by Python `str.splitlines`
(`\r\n` is handled separately as a single break). -/
def isNlChar (c : Char) : Bool :=
  c = '\n' || c = '\r' || c = '\x0b' || c = '\x0c' || c = '\x1c' ||
  c = '\x1d' || c = '\x1e' || c = '\x85' || c = '\u2028' || c = '\u2029'

/-! ## Substring occurrence and `str.replace` -/

/-- Does `t` occur as a contiguous substring of the second argument?
(Python's `t in s`.) -/
def occursIn (t : List Char) : List Char → Bool
  | [] => t.isPrefixOf []
  | c :: s => t.isPrefixOf (c :: s) || occursIn t s

/-- Fuel-driven core of `str.replace`: replace left-to-right, non-overlapping
occurrences of `t` by `u`, resuming after each replacement.  The fuel only
bounds the recursion; with `t ≠ []` every step consumes at least one input
character, so fuel `s.length` always suffices. -/
def replAux (t u : List Char) : Nat → List Char → List Char
  | 0, s => s
  | _ + 1, [] => []
  | fuel + 1, c :: s =>
    if t.isPrefixOf (c :: s) then u ++ replAux t u fuel (List.drop t.length (c :: s))
    else c :: replAux t u fuel s

/-- Python `s.replace(t, u)`.  The source only ever calls `replace` with a
non-empty pattern, so the empty-pattern case (where CPython would interleave
`u` between all characters) is mapped to the identity. -/
def pyReplace (s t u : List Char) : List Char :=
  if t.isEmpty then s else replAux t u s.length s

/-! ## `str.strip`, `str.splitlines`, `"\n".join` -/

def trimStart (s : List Char) : List Char := s.dropWhile isWsChar

def trimEnd (s : List Char) : List Char := (s.reverse.dropWhile isWsChar).reverse

/-- Python `s.strip()`. -/
def pyStrip (s : List Char) : List Char := trimEnd (trimStart s)

/-- Accumulator-driven core of `str.splitlines` (accumulator holds the current
line reversed).  A final unterminated line is kept only if non-empty,
matching CPython. -/
def slA : Bool → List Char → List Char → List (List Char)
  | _, [], cur => if cur.isEmpty then [] else [cur.reverse]
  | prevCR, c :: rest, cur =>
    if prevCR && c = '\n' then slA false rest cur
    else if c = '\r' then cur.reverse :: slA true rest []
    else if isNlChar c then cur.reverse :: slA false rest []
    else slA false rest (c :: cur)

/-- Python `s.splitlines()`. -/
def pySplitlines (s : List Char) : List (List Char) := slA false s []

/-- Python `"\n".join(lines)`. -/
def joinNl : List (List Char) → List Char
  | [] => []
  | l :: ls =>
    match ls with
    | [] => l
    | _ :: _ => l ++ '\n' :: joinNl ls

/-- Python `line.replace("\t", "    ")`: a single-character pattern, so the
left-to-right replacement is exactly pointwise expansion. -/
def expandTabs : List Char → List Char
  | [] => []
  | c :: rest =>
    if c = '\t' then ' ' :: ' ' :: ' ' :: ' ' :: expandTabs rest
    else c :: expandTabs rest

/-! ## The wait-marker insertion regex

`re.sub(r"(\s)([\w\.]+)\.get\(", r"\1await \2.get(", code)` (app.py lines 76
and 119).  At a whitespace character, the greedy run of `[\w.]` characters
that follows must (after backtracking) split as `path ++ ".get"` with `path`
non-empty, followed by a literal `'('`; since `'('` is not a `[\w.]`
character, this holds exactly when the maximal run has length at least 5,
ends in `".get"`, and is followed by `'('`. -/

/-- Match `[\w.]+\.get\(` at the head of `rest`; on success return the whole
matched run (which equals `path ++ ".get"`) and the input after the `'('`. -/
def fetchMatch (rest : List Char) : Option (List Char × List Char) :=
  let run := rest.takeWhile isWordDotChar
  let rest' := rest.dropWhile isWordDotChar
  if 5 ≤ run.length ∧ run.reverse.take 4 = ['t', 'e', 'g', '.'] ∧
      rest'.head? = some '(' then
    some (run, rest'.tail)
  else none

/-- Fuel-driven `re.sub` scan for the wait-marker insertion.  The replacement
`\1await \2.get(` equals the whitespace character, `"await "`, and the entire
matched run followed by `'('`; scanning resumes after the match. -/
def awaitSubA : Nat → List Char → List Char
  | 0, s => s
  | _ + 1, [] => []
  | fuel + 1, c :: rest =>
    if isWsChar c then
      match fetchMatch rest with
      | some (run, tail) =>
        c :: ("await ".data ++ run ++ '(' :: awaitSubA fuel tail)
      | none => c :: awaitSubA fuel rest
    else c :: awaitSubA fuel rest

def awaitSub (s : List Char) : List Char := awaitSubA s.length s

/-! ## The `async with … .get(…) as …:` rewrite regex

`re.sub(r"async with\s+([\w\.]+)\.get\((.*?)\)\s+as\s+(\w+):", …)` (app.py
lines 77-79 and 122-126).  The pattern is compiled without `re.DOTALL`, so
the lazy group `(.*?)` cannot cross a `'\n'`. -/

/-- Match `\s+as\s+(\w+):` at the head of `rest` (the part after the closing
parenthesis); return the bound variable and the remaining input. -/
def asTailMatch (rest : List Char) : Option (List Char × List Char) :=
  let ws1 := rest.takeWhile isWsChar
  let r1 := rest.dropWhile isWsChar
  if ws1.isEmpty then none else
  match r1 with
  | 'a' :: 's' :: r2 =>
    let ws2 := r2.takeWhile isWsChar
    let r3 := r2.dropWhile isWsChar
    if ws2.isEmpty then none else
    let v := r3.takeWhile isWordChar
    let r4 := r3.dropWhile isWordChar
    if v.isEmpty then none else
    match r4 with
    | ':' :: tail => some (v, tail)
    | _ => none
  | _ => none

/-- Lazy scan for `(.*?)\)\s+as\s+(\w+):` — the shortest newline-free prefix
whose following `')'` is succeeded by a matching tail.  A `')'` whose tail
does not match is absorbed into the group, exactly as the lazy quantifier
backtracks forward. -/
def argsScan : Nat → List Char → List Char → Option (List Char × List Char × List Char)
  | 0, _, _ => none
  | fuel + 1, acc, rest =>
    match rest with
    | [] => none
    | ')' :: r =>
      match asTailMatch r with
      | some (v, tail) => some (acc.reverse, v, tail)
      | none => argsScan fuel (')' :: acc) r
    | '\n' :: _ => none
    | c :: r => argsScan fuel (c :: acc) r

/-- Match the whole `async with` pattern at the head of `s`; return
`(path, args, var, rest-after-the-colon)`. -/
def awMatch (s : List Char) : Option (List Char × List Char × List Char × List Char) :=
  if "async with".data.isPrefixOf s then
    let r0 := s.drop 10
    let ws1 := r0.takeWhile isWsChar
    let r1 := r0.dropWhile isWsChar
    if ws1.isEmpty then none else
    match fetchMatch r1 with
    | some (run, afterParen) =>
      match argsScan (afterParen.length + 1) [] afterParen with
      | some (args, v, tail) => some (run.take (run.length - 4), args, v, tail)
      | none => none
    | none => none
  else none

/-- Replacement text `\1_response = await \1.get(\2)\n    \3 = \1_response`. -/
def awRepl (path args v : List Char) : List Char :=
  path ++ "_response = await ".data ++ path ++ ".get(".data ++ args ++
    ")\n    ".data ++ v ++ " = ".data ++ path ++ "_response".data

def asyncWithSubA : Nat → List Char → List Char
  | 0, s => s
  | _ + 1, [] => []
  | fuel + 1, c :: rest =>
    match awMatch (c :: rest) with
    | some (path, args, v, tail) => awRepl path args v ++ asyncWithSubA fuel tail
    | none => c :: asyncWithSubA fuel rest

def asyncWithSub (s : List Char) : List Char := asyncWithSubA s.length s

/-! ## Placeholder substitution and the repair pipeline -/

/-- The placeholder list of `repair_code` (app.py lines 81-84). -/
def repairPh : List (List Char) :=
  ["<the quiz URL>".data, "<the quiz URL you fetched>".data, "<quiz url>".data,
   "<quiz_url>".data, "YOUR_START_URL_HERE".data, "https://example.com/quiz".data]

/-- Placeholder substitution of `repair_code` (app.py lines 80-92): the loop
over `placeholders`, the four repeated single replacements, then the two
submit-URL deletions. -/
def substPlaceholders (u s : List Char) : List Char :=
  let s := repairPh.foldl (fun acc ph => pyReplace acc ph u) s
  let s := pyReplace s "<the quiz URL>".data u
  let s := pyReplace s "<the quiz URL you fetched>".data u
  let s := pyReplace s "<quiz url>".data u
  let s := pyReplace s "<quiz_url>".data u
  let s := pyReplace s "<submit url>".data []
  pyReplace s "<the quiz submission URL>".data []

/-- Import/entry-point/indentation steps shared by both repair variants
(app.py lines 94-101 and 141-152). -/
def finishRepair (code : List Char) : List Char :=
  let code := if occursIn "import httpx".data code then code
              else "import httpx\n".data ++ code
  let code := if occursIn "import re".data code then code
              else "import re\n".data ++ code
  let code := if occursIn "async def main".data code then code
              else code ++ "\n\nasync def main():\n    pass\n".data
  pyStrip (joinNl ((pySplitlines code).map expandTabs))

/-- Fence-stripping and wait-marker steps shared by both repair variants
(app.py lines 74-79 and 115-126). -/
def preRepair (code0 : List Char) : List Char :=
  let code := pyReplace code0 "```python".data []
  let code := pyReplace code "```".data []
  let code := pyStrip code
  let code := pyReplace code "await await ".data "await ".data
  let code := pyReplace code "await  await".data "await ".data
  let code := awaitSub code
  asyncWithSub code

/-- `repair_code` (app.py lines 73-101) over character lists. -/
def repairL (code0 u : List Char) : List Char :=
  finishRepair (substPlaceholders u (preRepair code0))

/-- `repair_code(code, starturl)` (app.py lines 73-101). -/
def repair_code (code starturl : String) : String :=
  ⟨repairL code.data starturl.data⟩

/-- The placeholder list used inside `run_code_safely` (app.py lines 129-132):
it lacks the `"https://example.com/quiz"` entry of `repair_code`. -/
def rcsPh : List (List Char) :=
  ["<the quiz URL>".data, "<the quiz URL you fetched>".data, "<quiz url>".data,
   "<quiz_url>".data, "YOUR_START_URL_HERE".data]

/-- Placeholder substitution inside `run_code_safely` (app.py lines 128-138). -/
def rcsSubst (u s : List Char) : List Char :=
  let s := rcsPh.foldl (fun acc ph => pyReplace acc ph u) s
  let s := pyReplace s "<submit url>".data []
  pyReplace s "<the quiz submission URL>".data []

/-- The repair sequence inlined in `run_code_safely` (app.py lines 115-152). -/
def rcsRepairL (code0 u : List Char) : List Char :=
  finishRepair (rcsSubst u (preRepair code0))

/-- The wrapper construction of `run_code_safely` (app.py lines 161-163):
`"async def __tmp_func():\n"` followed by each line of the repaired code
indented by four spaces and newline-terminated. -/
def buildWrapper (repaired : List Char) : List Char :=
  "async def __tmp_func():\n".data ++
    (pySplitlines repaired).foldr (fun l acc => "    ".data ++ l ++ '\n' :: acc) []

/-! ## The fenced-block `re.findall`

`re.findall(r"```(?:python)?\s*(.*?)\s*```", response_text, re.DOTALL |
re.IGNORECASE)` (app.py line 48).  After the opening fence (and the optional
case-insensitive `python` tag) the greedy `\s*` skips the maximal whitespace
run; the lazy `(.*?)\s*```" then ends at the first closing fence, with the
whitespace run immediately before it attributed to the trailing `\s*`
(back-ticks are not whitespace, so the greedy trailing `\s*` can only place
the closing fence at the end of a maximal whitespace run).  Scanning resumes
after each match; on failure the scan advances one character. -/

/-- Scan for the closing fence; return the group (collected characters with
trailing whitespace stripped) and the input after the closing fence.  The
accumulator holds the group characters reversed. -/
def fenceClose : Nat → List Char → List Char → Option (List Char × List Char)
  | 0, _, _ => none
  | fuel + 1, acc, s =>
    if "```".data.isPrefixOf s then some (trimEnd acc.reverse, s.drop 3)
    else
      match s with
      | [] => none
      | c :: r => fenceClose fuel (c :: acc) r

def fenceAux : Nat → List Char → List (List Char)
  | 0, _ => []
  | _ + 1, [] => []
  | fuel + 1, s@(_ :: rest) =>
    if "```".data.isPrefixOf s then
      let j0 := s.drop 3
      let j := if "python".data.isPrefixOf ((j0.take 6).map Char.toLower)
               then j0.drop 6 else j0
      let body := j.dropWhile isWsChar
      match fenceClose (body.length + 1) [] body with
      | some (grp, tail) => grp :: fenceAux fuel tail
      | none => fenceAux fuel rest
    else fenceAux fuel rest

/-- The list of captured groups of the fenced-block `re.findall`. -/
def fencedBlocksL (s : List Char) : List (List Char) := fenceAux s.length s

/-- String-level view of the fenced-block search (`blocks` at app.py line 48). -/
def fencedBlocks (s : String) : List String :=
  (fencedBlocksL s.data).map fun l => ⟨l⟩

/-! ## `validate_python` and `extract_valid_code_blocks`

`ast.parse` is an external collaborator; it is passed in as a function
describing, for each source string, whether the parse succeeds, fails with a
`SyntaxError` (message and approximate line number), or raises an exception
of any other class.  `validate_python` (app.py lines 39-44) catches only
`SyntaxError`; anything else escapes it. -/

/-- Outcome of an `ast.parse` call. -/
inductive AstResult where
  | parsed : AstResult
  | syntaxError : String → Nat → AstResult
  | otherError : String → AstResult
deriving DecidableEq

/-- A Python exception escaping a modelled function. -/
structure PyExn where
  msg : String
deriving DecidableEq

/-- `validate_python(code)` (app.py lines 39-44): `True` on a successful
parse, `False` when `ast.parse` raises `SyntaxError` (discarding its message
and line number), and an escaping exception otherwise. -/
def validate_python (parse : String → AstResult) (code : String) :
    Except PyExn Bool :=
  match parse code with
  | .parsed => .ok true
  | .syntaxError _ _ => .ok false
  | .otherError m => .error ⟨m⟩

/-- Python `s.strip()` on strings. -/
def stripS (s : String) : String := ⟨pyStrip s.data⟩

/-- The list comprehension at app.py line 49, evaluated left to right; an
exception raised by `validate_python` aborts it. -/
def filterValidBlocks (parse : String → AstResult) :
    List String → Except PyExn (List String)
  | [] => .ok []
  | b :: bs =>
    match validate_python parse (stripS b) with
    | .error e => .error e
    | .ok true =>
      match filterValidBlocks parse bs with
      | .error e => .error e
      | .ok rest => .ok (stripS b :: rest)
    | .ok false => filterValidBlocks parse bs

/-- `extract_valid_code_blocks(response_text)` (app.py lines 47-52). -/
def extract_valid_code_blocks (parse : String → AstResult)
    (response_text : String) : Except PyExn (List String) :=
  match filterValidBlocks parse (fencedBlocks response_text) with
  | .error e => .error e
  | .ok valid =>
    if valid.isEmpty then
      match validate_python parse response_text with
      | .error e => .error e
      | .ok true => .ok [response_text]
      | .ok false => .ok []
    else .ok valid

/-! ## `run_code_safely` and the `process_request` control flow

The effectful steps — the LLM call and the two dynamic-execution steps of
`run_code_safely` (`exec` of the wrapper source, then awaiting
`__tmp_func()`) — are supplied by an oracle.  `run_code_safely` (app.py
lines 104-170) contains no `try` statement: an exception raised by either
step propagates to the caller. -/

structure Oracle where
  llm : Except PyExn String
  compileExec : String → Except PyExn Unit
  invokeMain : String → Except PyExn Unit

/-- `run_code_safely(code, starturl)` (app.py lines 104-170): repair the code
(lines 115-152), build the wrapper (lines 161-163), `exec` it (line 167) and
await the entry point (line 170).  There is no handler: either step's
exception is the function's outcome. -/
def run_code_safely (o : Oracle) (code starturl : String) : Except PyExn Unit :=
  let repaired : String := ⟨rcsRepairL code.data starturl.data⟩
  let wrapper : String := ⟨buildWrapper repaired.data⟩
  match o.compileExec wrapper with
  | .error e => .error e
  | .ok _ => o.invokeMain wrapper

/-- The placeholder list of `process_request` (app.py lines 271-274). -/
def prPh : List (List Char) :=
  ["<the quiz URL>".data, "<the quiz URL you fetched>".data, "<quiz url>".data,
   "<quiz_url>".data, "YOUR_START_URL_HERE".data, "https://example.com/quiz".data,
   "your_quiz_page_url_here".data]

/-- The placeholder loop of `process_request` (app.py lines 275-276). -/
def prSubst (u g : List Char) : List Char :=
  prPh.foldl (fun acc ph => pyReplace acc ph u) g

instance {ε α : Type} [DecidableEq ε] [DecidableEq α] :
    DecidableEq (Except ε α) := fun a b =>
  match a, b with
  | .ok x, .ok y =>
    if h : x = y then isTrue (h ▸ rfl)
    else isFalse (fun hh => h (by injection hh))
  | .ok _, .error _ => isFalse (fun h => Except.noConfusion h)
  | .error _, .ok _ => isFalse (fun h => Except.noConfusion h)
  | .error e₁, .error e₂ =>
    if h : e₁ = e₂ then isTrue (h ▸ rfl)
    else isFalse (fun hh => h (by injection hh))

/-- Program counters of `process_request` (app.py lines 260-295), one per
statement group.  `deadTry`, `deadExec` and `deadHandler` are the statements
at lines 289-293: they sit inside the `except` block of line 280, after the
`return` of line 282. -/
inductive PC where
  | tryEntry : PC
  | successPath : PC
  | exceptPrint : PC
  | exceptReturn : PC
  | deadTry : PC
  | deadExec : PC
  | deadHandler : PC
  | afterTry : PC
  | done : Except PyExn Unit → PC
deriving DecidableEq

structure PState where
  pc : PC
  gen : String
deriving DecidableEq

/-- One statement step of `process_request`.  `tryEntry` performs the
`cached_call_aipipe` call of line 261; on success the placeholder loop of
lines 271-276 rewrites the generated code and control falls through the end
of the `try` block to line 295 (`afterTry`).  On failure the handler prints
(line 281) and returns (line 282), which leaves the function — the nested
`try` at lines 289-293 is the remainder of the handler body after that
`return`.  Were `deadExec` ever reached, it would call `run_code_safely`
(line 291) and a raised exception would enter the inner handler (line 292),
whose own message expression references the undefined name `idx` (line 293)
and so raises `NameError`. -/
def procStep (o : Oracle) (starturl : String) : PState → PState
  | ⟨.tryEntry, g⟩ =>
    match o.llm with
    | .ok generated => ⟨.successPath, ⟨prSubst starturl.data generated.data⟩⟩
    | .error _ => ⟨.exceptPrint, g⟩
  | ⟨.successPath, g⟩ => ⟨.afterTry, g⟩
  | ⟨.exceptPrint, g⟩ => ⟨.exceptReturn, g⟩
  | ⟨.exceptReturn, g⟩ => ⟨.done (.ok ()), g⟩
  | ⟨.deadTry, g⟩ => ⟨.deadExec, g⟩
  | ⟨.deadExec, g⟩ =>
    match run_code_safely o g starturl with
    | .ok _ => ⟨.afterTry, g⟩
    | .error _ => ⟨.deadHandler, g⟩
  | ⟨.deadHandler, g⟩ =>
    ⟨.done (.error ⟨"NameError: name 'idx' is not defined"⟩), g⟩
  | ⟨.afterTry, g⟩ => ⟨.done (.ok ()), g⟩
  | ⟨.done r, g⟩ => ⟨.done r, g⟩

/-- Run the statement machine, collecting the program counters visited. -/
def procTrace (o : Oracle) (starturl : String) : Nat → PState → List PC
  | 0, st => [st.pc]
  | fuel + 1, st =>
    match st.pc with
    | .done r => [.done r]
    | _ => st.pc :: procTrace o starturl fuel (procStep o starturl st)

/-- The complete control-flow trace of one `process_request(data)` background
task (app.py lines 206-295); eight steps exceed the longest statement chain. -/
def process_request (o : Oracle) (starturl : String) : List PC :=
  procTrace o starturl 8 ⟨.tryEntry, ""⟩

/-- How many times the trace performs the generation attempt (the
`cached_call_aipipe` call site of line 261). -/
def attemptCount (o : Oracle) (starturl : String) : Nat :=
  (process_request o starturl).count .tryEntry

/-! ## The memoised LLM call

`@lru_cache(maxsize=32)` applied to `async def cached_call_aipipe` (app.py
lines 55-57) memoises the *coroutine object* returned by calling the
function, keyed by prompt.  Coroutines are one-shot: awaiting one that has
already run raises `RuntimeError`.  The model keeps the coroutine objects in
an indexed store `coros` (prompt plus an already-awaited flag) and the cache
table in `cache` (most recent first, truncated to the `maxsize` of 32). -/

structure CoroCache where
  coros : List (String × Bool)
  cache : List (String × Nat)
deriving DecidableEq

def lookupCache (p : String) : List (String × Nat) → Option Nat
  | [] => none
  | (q, i) :: r => if q = p then some i else lookupCache p r

/-- Calling `cached_call_aipipe(prompt)`: a cache hit returns the stored
coroutine object itself; a miss creates a fresh (not yet awaited) coroutine
and records it. -/
def cached_call_aipipe (p : String) (st : CoroCache) : Nat × CoroCache :=
  match lookupCache p st.cache with
  | some i => (i, st)
  | none =>
    let i := st.coros.length
    (i, ⟨st.coros ++ [(p, false)], ((p, i) :: st.cache).take 32⟩)

/-- Awaiting the coroutine: the first await runs `call_aipipe(prompt)`
(supplied as `respond`); any later await raises
`RuntimeError: cannot reuse already awaited coroutine`. -/
def awaitCoro (respond : String → String) (i : Nat) (st : CoroCache) :
    Except PyExn String × CoroCache :=
  match st.coros[i]? with
  | some (p, false) => (.ok (respond p), ⟨st.coros.set i (p, true), st.cache⟩)
  | some (_, true) =>
    (.error ⟨"RuntimeError: cannot reuse already awaited coroutine"⟩, st)
  | none => (.error ⟨"invalid coroutine"⟩, st)

/-! ## Predicates and concrete instantiations used by the stated properties -/

/-- The eight distinct placeholder tokens handled by `repair_code`
(app.py lines 81-92): the six quiz-URL tokens and the two submission-URL
tokens. -/
def placeholderTokens : List (List Char) :=
  repairPh ++ ["<submit url>".data, "<the quiz submission URL>".data]

/-- No placeholder token occurs in `s`. -/
def tokenFree (s : List Char) : Bool :=
  placeholderTokens.all fun t => !occursIn t s

/-- The text is tab-free and uses `'\n'` as its only line-break character. -/
def plainText (s : List Char) : Bool :=
  s.all fun c => !(c = '\t') && (!(isNlChar c) || c = '\n')

/-- A concrete instantiation of the `ast.parse` parameter for the closed
instances below: a source containing `'('` but no `')'` fails to parse with
a `SyntaxError` (as the real parser would report an unclosed parenthesis),
everything else parses. -/
def toyParse (s : String) : AstResult :=
  if occursIn "(".data s.data && !occursIn ")".data s.data then
    .syntaxError "'(' was never closed" 1
  else .parsed

/-- CPython 3.11's `ast.parse` raises `UnicodeEncodeError` — a `ValueError`,
not a `SyntaxError` — on a source containing a lone surrogate code point
(such a `str` is produced, for example, by JSON-decoding `"\ud800"`, which
is how LLM response bodies reach this code).  Lean `Char` excludes surrogate
code points, so the model names that one-character Python string by its
escaped spelling. -/
def loneSurrogate : String := "\\ud800"

/-- `ast.parse` behaviour featuring the lone-surrogate failure mode. -/
def astParseSurrogate (s : String) : AstResult :=
  if s = loneSurrogate then
    .otherError "'utf-8' codec can't encode character '\\ud800' in position 0: surrogates not allowed"
  else .parsed

/-- An oracle whose generation succeeds and whose executed program would
report a follow-up target; compilation and invocation both succeed. -/
def followUpOracle : Oracle :=
  { llm := .ok "print('Next URL: http://quiz.example/2')"
  , compileExec := fun _ => .ok ()
  , invokeMain := fun _ => .ok () }

/-- An oracle for a generated program whose body raises at invocation time. -/
def raisingInvokeOracle : Oracle :=
  { llm := .ok "raise ValueError('boom')"
  , compileExec := fun _ => .ok ()
  , invokeMain := fun _ => .error ⟨"ValueError: boom"⟩ }

/-- An oracle for a generated program that does not even compile: the `exec`
of the wrapped source raises a `SyntaxError`. -/
def raisingCompileOracle : Oracle :=
  { llm := .ok "def broken(:"
  , compileExec := fun _ => .error ⟨"SyntaxError: invalid syntax"⟩
  , invokeMain := fun _ => .ok () }

/-! ## Basic lemmas about substring occurrence -/

theorem occursIn_cons (t : List Char) (c : Char) (s : List Char) :
    occursIn t (c :: s) = (t.isPrefixOf (c :: s) || occursIn t s) := rfl

theorem occursIn_of_isPrefixOf {t s : List Char} (h : t.isPrefixOf s) :
    occursIn t s = true := by
  cases s with
  | nil => simpa [occursIn] using h
  | cons c r => simp [occursIn_cons, h]

theorem occursIn_of_prefix {t s : List Char} (h : t <+: s) : occursIn t s = true :=
  occursIn_of_isPrefixOf (List.isPrefixOf_iff_prefix.mpr h)

theorem not_occursIn_tail {t : List Char} {c : Char} {s : List Char}
    (h : occursIn t (c :: s) = false) : occursIn t s = false := by
  rw [occursIn_cons] at h
  exact (Bool.or_eq_false_iff.mp h).2

theorem not_isPrefixOf_head {t : List Char} {c : Char} {s : List Char}
    (h : occursIn t (c :: s) = false) : t.isPrefixOf (c :: s) = false := by
  rw [occursIn_cons] at h
  exact (Bool.or_eq_false_iff.mp h).1

theorem occursIn_append_right {t b : List Char} (a : List Char)
    (h : occursIn t b = true) : occursIn t (a ++ b) = true := by
  induction a with
  | nil => simpa
  | cons c a ih => simp [occursIn_cons, ih]

theorem occursIn_append_left {t a : List Char} (b : List Char)
    (h : occursIn t a = true) : occursIn t (a ++ b) = true := by
  induction a with
  | nil =>
    have ht : t = [] := List.prefix_nil.mp (List.isPrefixOf_iff_prefix.mp (by simpa [occursIn] using h))
    subst ht
    exact occursIn_of_prefix List.nil_prefix
  | cons c a ih =>
    rw [occursIn_cons] at h
    rcases Bool.or_eq_true_iff.mp h with hp | ho
    · exact occursIn_of_prefix
        ((List.isPrefixOf_iff_prefix.mp hp).trans (List.prefix_append _ b))
    · simp [occursIn_cons, ih ho]

/-- An occurrence of a pattern is an occurrence of each of its prefixes. -/
theorem occursIn_of_pattern_prefix {t₁ t₂ s : List Char} (hp : t₁ <+: t₂)
    (h : occursIn t₂ s = true) : occursIn t₁ s = true := by
  induction s with
  | nil =>
    have h2 : t₂ = [] := List.prefix_nil.mp (List.isPrefixOf_iff_prefix.mp (by simpa [occursIn] using h))
    subst h2
    have h1 : t₁ = [] := List.prefix_nil.mp hp
    simp [h1, occursIn]
  | cons c r ih =>
    rw [occursIn_cons] at h
    rcases Bool.or_eq_true_iff.mp h with hpre | ho
    · exact occursIn_of_prefix (hp.trans (List.isPrefixOf_iff_prefix.mp hpre))
    · simp [occursIn_cons, ih ho]

/-- A string that decomposes around the pattern contains the pattern. -/
theorem occursIn_of_eq_append {t s a b : List Char} (h : s = a ++ t ++ b) :
    occursIn t s = true := by
  subst h
  rw [List.append_assoc]
  exact occursIn_append_right a ( occursIn_of_prefix (List.prefix_append t b))

/-! ## Identity lemmas for the textual transformations -/

theorem replAux_eq_self {t : List Char} (u : List Char) (f : Nat) :
    ∀ s, occursIn t s = false → replAux t u f s = s := by
  induction f with
  | zero => intro s _; rfl
  | succ f ih =>
    intro s h
    cases s with
    | nil => rfl
    | cons c r =>
      have h1 : t.isPrefixOf (c :: r) = false := not_isPrefixOf_head h
      simp only [replAux, h1, Bool.false_eq_true, if_false]
      rw [ih r (not_occursIn_tail h)]

theorem pyReplace_eq_self {s t : List Char} (u : List Char)
    (h : occursIn t s = false) : pyReplace s t u = s := by
  unfold pyReplace
  split
  · rfl
  · exact replAux_eq_self u s.length s h

/-! ## The claims about the execution pipeline (C1, C8, C9, C10) -/

/-- C1: the spec says exceptions raised while compiling or invoking the
generated program are captured as an outcome of kind "exception" and never
propagate; in the code `run_code_safely` contains no handler at all, so the
exception is the call's outcome — it propagates to the caller (whose only
call site, moreover, sits in unreachable dead code inside the LLM-failure
handler).  This theorem evaluates the model at both failing inputs: a
compilation failure and an invocation failure each escape unconverted. -/
theorem c1_run_code_safely_propagates :
    run_code_safely raisingInvokeOracle "raise ValueError('boom')" "http://quiz.example/1"
        = .error ⟨"ValueError: boom"⟩ ∧
      run_code_safely raisingCompileOracle "def broken(:" "http://quiz.example/1"
        = .error ⟨"SyntaxError: invalid syntax"⟩ := by
  exact ⟨rfl, rfl⟩

/-- C8 (counterexample): with an oracle whose generated program always
reports a follow-up target and executes successfully, the loop still
performs one single generation attempt, not the configured maximum of
three — there is no recursion on follow-up targets anywhere in
`process_request`. -/
theorem c8_attempts_not_three_cex :
    attemptCount followUpOracle "http://quiz.example/1" ≠ 3 := by decide

/-- C8 (amended): for every oracle — in particular one whose execution
outcome always carries a follow-up target — `process_request` performs
exactly one generation attempt and stops in the terminal `done` state; the
attempt count therefore never exceeds the maximum of three. -/
theorem c8_single_attempt (o : Oracle) (starturl : String) :
    attemptCount o starturl = 1 ∧ attemptCount o starturl ≤ 3 ∧
      (process_request o starturl).getLast? = some (.done (.ok ())) := by
  cases h : o.llm with
  | ok g =>
    have ht : process_request o starturl
        = [.tryEntry, .successPath, .afterTry, .done (.ok ())] := by
      simp [process_request, procTrace, procStep, h]
    rw [attemptCount, ht]
    exact ⟨rfl, by decide, rfl⟩
  | error e =>
    have ht : process_request o starturl
        = [.tryEntry, .exceptPrint, .exceptReturn, .done (.ok ())] := by
      simp [process_request, procTrace, procStep, h]
    rw [attemptCount, ht]
    exact ⟨rfl, by decide, rfl⟩

/-- C9: `lru_cache` memoises the coroutine object, not the response text: the
first call-and-await returns `call_aipipe`'s response, the second call with
the same prompt returns the very same coroutine object, and awaiting it
raises `RuntimeError` instead of returning the cached response. -/
theorem c9_cached_coroutine_reuse_raises (respond : String → String) (p : String) :
    let s0 : CoroCache := ⟨[], []⟩
    let r1 := cached_call_aipipe p s0
    let a1 := awaitCoro respond r1.1 r1.2
    let r2 := cached_call_aipipe p a1.2
    let a2 := awaitCoro respond r2.1 r2.2
    a1.1 = .ok (respond p) ∧ r2.1 = r1.1 ∧
      a2.1 = .error ⟨"RuntimeError: cannot reuse already awaited coroutine"⟩ := by
  simp [cached_call_aipipe, awaitCoro, lookupCache]

/-- C10: whenever the LLM call returns without raising, the trace of
`process_request` passes through the success path (which prints the
generated text), terminates normally, and never reaches the
`run_code_safely` call site — the `try` block of lines 289-293 sits inside
the exception handler after its `return`, so the generated program is never
executed on the success path. -/
theorem c10_success_path_skips_execution (o : Oracle) (starturl g : String)
    (h : o.llm = .ok g) :
    PC.successPath ∈ process_request o starturl ∧
      PC.deadTry ∉ process_request o starturl ∧
      PC.deadExec ∉ process_request o starturl ∧
      (process_request o starturl).getLast? = some (.done (.ok ())) := by
  have ht : process_request o starturl
      = [.tryEntry, .successPath, .afterTry, .done (.ok ())] := by
    simp [process_request, procTrace, procStep, h]
  rw [ht]
  refine ⟨by decide, by decide, by decide, rfl⟩

/-- Closed instance for C10: the success-path theorem applied to a concrete
oracle whose LLM call succeeds. -/
theorem c10_success_path_witness :
    PC.successPath ∈ process_request followUpOracle "http://quiz.example/1" ∧
      PC.deadTry ∉ process_request followUpOracle "http://quiz.example/1" ∧
      PC.deadExec ∉ process_request followUpOracle "http://quiz.example/1" ∧
      (process_request followUpOracle "http://quiz.example/1").getLast?
        = some (.done (.ok ())) :=
  c10_success_path_skips_execution followUpOracle "http://quiz.example/1"
    "print('Next URL: http://quiz.example/2')" rfl

/-! ## Counterexamples for the repair claims (C2, C3, C5) -/

set_option maxRecDepth 80000 in
/-- C2 (counterexample): `repair_code` is not idempotent.  On a fragment with
an unmarked fetch call, the second application matches the whitespace before
the already-inserted marker's call path again and inserts a duplicate
`await`. -/
theorem c2_repair_not_idempotent_cex :
    repair_code (repair_code "r = client.get(x)" "http://quiz.example/1")
        "http://quiz.example/1"
      ≠ repair_code "r = client.get(x)" "http://quiz.example/1" := by decide

set_option maxRecDepth 80000 in
/-- C3 (counterexample): a fragment whose fetch call is already correctly
preceded by `await` is not left unchanged: repair inserts a second marker,
yielding `await await client.get(`. -/
theorem c3_marked_call_changed_cex :
    occursIn "await await client.get(".data
        (repair_code "r = await client.get(x)" "http://quiz.example/1").data = true ∧
      occursIn "await await".data "r = await client.get(x)".data = false := by
  exact ⟨by decide, by decide⟩

/-! ## Character-class facts -/

theorem ws_not_wordDot {c : Char} (h : isWsChar c = true) :
    isWordDotChar c = false := by
  simp only [isWsChar, Bool.or_eq_true, decide_eq_true_eq] at h
  rcases h with ((((h | h) | h) | h) | h) | h <;> subst h <;> decide

theorem wordDot_not_ws {c : Char} (h : isWordDotChar c = true) :
    isWsChar c = false := by
  cases hw : isWsChar c
  · rfl
  · rw [ws_not_wordDot hw] at h; cases h

/-! ## `takeWhile`/`dropWhile` over a satisfying run -/

theorem takeWhile_all_append {p : Char → Bool} :
    ∀ (w : List Char) (c : Char) (z : List Char),
      (∀ x ∈ w, p x = true) → p c = false →
      (w ++ c :: z).takeWhile p = w ∧ (w ++ c :: z).dropWhile p = c :: z := by
  intro w
  induction w with
  | nil =>
    intro c z _ hc
    simp [List.takeWhile_cons, List.dropWhile_cons, hc]
  | cons x w ih =>
    intro c z hw hc
    have hx : p x = true := hw x (by simp)
    have h2 := ih c z (fun y hy => hw y (by simp [hy])) hc
    simp [List.takeWhile_cons, List.dropWhile_cons, hx, h2.1, h2.2]

/-! ## Characterisation of the fetch-call matcher -/

theorem fetchMatch_some_spec {rest rn tl : List Char}
    (h : fetchMatch rest = some (rn, tl)) :
    rest = rn ++ '(' :: tl ∧ (∀ x ∈ rn, isWordDotChar x = true) ∧
      ∃ rn₀, rn = rn₀ ++ '.' :: 'g' :: 'e' :: 't' :: [] := by
  simp only [fetchMatch] at h
  split at h
  · rename_i hcond
    obtain ⟨h5, h4, hhd⟩ := hcond
    injection h with h
    injection h with h1 h2
    have hdw : rest.dropWhile isWordDotChar = '(' :: tl := by
      cases hd : rest.dropWhile isWordDotChar with
      | nil => rw [hd] at hhd; cases hhd
      | cons d dtl =>
        rw [hd] at hhd h2
        have hdc : d = '(' := by simpa using hhd
        have hdt : dtl = tl := by simpa using h2
        rw [hdc, hdt]
    refine ⟨?_, ?_, ?_⟩
    · rw [← h1, ← hdw]
      exact (List.takeWhile_append_dropWhile isWordDotChar rest).symm
    · intro x hx
      exact List.mem_takeWhile_imp (h1 ▸ hx)
    · have h4' : rn.reverse.take 4 = ['t', 'e', 'g', '.'] := h1 ▸ h4
      refine ⟨(rn.reverse.drop 4).reverse, ?_⟩
      have hsplit : rn.reverse = ['t', 'e', 'g', '.'] ++ rn.reverse.drop 4 := by
        conv_lhs => rw [← List.take_append_drop 4 rn.reverse]
        rw [h4']
      calc rn = rn.reverse.reverse := (List.reverse_reverse rn).symm
        _ = (['t', 'e', 'g', '.'] ++ rn.reverse.drop 4).reverse := by rw [← hsplit]
        _ = (rn.reverse.drop 4).reverse ++ '.' :: 'g' :: 'e' :: 't' :: [] := by simp
  · cases h

theorem fetchMatch_of_shape (run z : List Char) (hrun : run ≠ [])
    (hwd : ∀ x ∈ run, isWordDotChar x = true) :
    fetchMatch (run ++ '.' :: 'g' :: 'e' :: 't' :: '(' :: z)
      = some (run ++ '.' :: 'g' :: 'e' :: 't' :: [], z) := by
  have hw : ∀ x ∈ run ++ '.' :: 'g' :: 'e' :: 't' :: [], isWordDotChar x = true := by
    intro x hx
    rcases List.mem_append.mp hx with hx | hx
    · exact hwd x hx
    · rcases hx with _ | ⟨_, _ | ⟨_, _ | ⟨_, _ | ⟨_, h⟩⟩⟩⟩ <;> first | decide | cases h
  have hassoc : run ++ '.' :: 'g' :: 'e' :: 't' :: '(' :: z
      = (run ++ '.' :: 'g' :: 'e' :: 't' :: []) ++ '(' :: z := by simp
  rw [hassoc]
  obtain ⟨ht, hd⟩ :=
    takeWhile_all_append (run ++ '.' :: 'g' :: 'e' :: 't' :: []) '(' z hw (by decide)
  have hlen : 1 ≤ run.length := List.length_pos.mpr hrun
  have hrev : (run ++ '.' :: 'g' :: 'e' :: 't' :: []).reverse.take 4
      = ['t', 'e', 'g', '.'] := by
    rw [List.reverse_append]
    rfl
  simp only [fetchMatch, ht, hd]
  have hcond : 5 ≤ (run ++ '.' :: 'g' :: 'e' :: 't' :: []).length ∧
      (run ++ '.' :: 'g' :: 'e' :: 't' :: []).reverse.take 4 = ['t', 'e', 'g', '.'] ∧
      (('(' :: z) : List Char).head? = some '(' := by
    refine ⟨by simp; omega, hrev, rfl⟩
  rw [if_pos hcond]
  rfl

/-! ## Every fetch call in the insertion step's output is marked (C3) -/

/-- A non-empty `[\w.]` run cannot line up with the emitted `await ` text. -/
theorem run_not_await (run post Z : List Char)
    (hwd : ∀ x ∈ run, isWordDotChar x = true) :
    run ++ '.' :: 'g' :: 'e' :: 't' :: '(' :: post
      ≠ 'a' :: 'w' :: 'a' :: 'i' :: 't' :: ' ' :: Z := by
  intro h
  rcases run with _ | ⟨r1, run⟩
  · injection h with h1 _
    exact absurd h1 (by decide)
  injection h with h1 h
  rcases run with _ | ⟨r2, run⟩
  · injection h with h2 _
    exact absurd h2 (by decide)
  injection h with h2 h
  rcases run with _ | ⟨r3, run⟩
  · injection h with h3 _
    exact absurd h3 (by decide)
  injection h with h3 h
  rcases run with _ | ⟨r4, run⟩
  · injection h with h4 _
    exact absurd h4 (by decide)
  injection h with h4 h
  rcases run with _ | ⟨r5, run⟩
  · injection h with h5 _
    exact absurd h5 (by decide)
  injection h with h5 h
  rcases run with _ | ⟨r6, run⟩
  · injection h with h6 _
    exact absurd h6 (by decide)
  · injection h with h6 h
    have hr6 : isWordDotChar r6 = true := hwd r6 (by simp)
    rw [h6] at hr6
    exact absurd hr6 (by decide)

/-- A maximal-looking `[\w.]` run followed by `'('` at the head of the
output of the insertion scan comes verbatim from the head of its input. -/
theorem awaitSubA_paren_head :
    ∀ (fuel : Nat) (rest : List Char), rest.length ≤ fuel →
      ∀ w post, awaitSubA fuel rest = w ++ '(' :: post →
        (∀ x ∈ w, isWordDotChar x = true) →
        ∃ post', rest = w ++ '(' :: post' := by
  intro fuel
  induction fuel with
  | zero =>
    intro rest hlen w post h _
    have hnil : rest = [] := List.eq_nil_of_length_eq_zero (Nat.le_zero.mp hlen)
    subst hnil
    simp only [awaitSubA] at h
    cases w <;> simp at h
  | succ fuel ih =>
    intro rest hlen w post h hw
    cases rest with
    | nil =>
      simp only [awaitSubA] at h
      cases w <;> simp at h
    | cons b r =>
      have hrl : r.length ≤ fuel := by
        simpa using Nat.succ_le_succ_iff.mp (by simpa using hlen)
      by_cases hb : isWsChar b = true
      · cases hm : fetchMatch r with
        | none =>
          simp only [awaitSubA, hb, if_true, hm] at h
          cases w with
          | nil =>
            have hbp : b = '(' := by simpa using congrArg (List.head?) h
            rw [hbp] at hb
            exact absurd hb (by decide)
          | cons x w' =>
            have hbx : b = x := by simpa using congrArg (List.head?) h
            have : isWordDotChar x = true := hw x (by simp)
            rw [← hbx, ws_not_wordDot hb] at this
            cases this
        | some pr =>
          obtain ⟨rn, tl⟩ := pr
          simp only [awaitSubA, hb, if_true, hm] at h
          cases w with
          | nil =>
            have hbp : b = '(' := by simpa using congrArg (List.head?) h
            rw [hbp] at hb
            exact absurd hb (by decide)
          | cons x w' =>
            have hbx : b = x := by simpa using congrArg (List.head?) h
            have : isWordDotChar x = true := hw x (by simp)
            rw [← hbx, ws_not_wordDot hb] at this
            cases this
      · have hb' : isWsChar b = false := by
          cases hbb : isWsChar b
          · rfl
          · exact absurd hbb hb
        simp only [awaitSubA, hb', Bool.false_eq_true, if_false] at h
        cases w with
        | nil =>
          have hbp : b = '(' := by simpa using congrArg (List.head?) h
          exact ⟨r, by rw [hbp]; simp⟩
        | cons x w' =>
          have hbx : b = x := by simpa using congrArg (List.head?) h
          have htl : awaitSubA fuel r = w' ++ '(' :: post := by
            simpa using congrArg (List.tail) h
          obtain ⟨post', hp⟩ := ih r hrl w' post htl (fun y hy => hw y (by simp [hy]))
          exact ⟨post', by rw [hbx, hp]; simp⟩

/-- Splitting an occurrence off a whitespace-free emitted block: the
occurrence's whitespace character must lie beyond the block. -/
theorem noWs_split :
    ∀ (w pre : List Char) (c : Char) (Z Y : List Char),
      (∀ x ∈ w, isWsChar x = false) → isWsChar c = true →
      pre ++ c :: Z = w ++ Y →
      ∃ pre', pre = w ++ pre' ∧ pre' ++ c :: Z = Y := by
  intro w
  induction w with
  | nil =>
    intro pre c Z Y _ _ h
    exact ⟨pre, rfl, by simpa using h⟩
  | cons x w ih =>
    intro pre c Z Y hw hc h
    cases pre with
    | nil =>
      have hcx : c = x := by simpa using congrArg (List.head?) h
      have := hw x (by simp)
      rw [← hcx, hc] at this
      cases this
    | cons p pre' =>
      have hpx : p = x := by simpa using congrArg (List.head?) h
      have htl : pre' ++ c :: Z = w ++ Y := by simpa using congrArg (List.tail) h
      obtain ⟨pre'', hpre, hY⟩ := ih pre' c Z Y (fun y hy => hw y (by simp [hy])) hc htl
      exact ⟨pre'', by simp [hpx, hpre], hY⟩

/-- Main induction for C3: in the output of the wait-marker insertion scan,
every whitespace-preceded fetch-call occurrence has the marker `await`
immediately before its whitespace character. -/
theorem awaitSubA_marks :
    ∀ (fuel : Nat) (s : List Char), s.length ≤ fuel →
      ∀ pre c run post,
        awaitSubA fuel s = pre ++ c :: (run ++ '.' :: 'g' :: 'e' :: 't' :: '(' :: post) →
        isWsChar c = true → run ≠ [] → (∀ x ∈ run, isWordDotChar x = true) →
        ∃ pre₀, pre = pre₀ ++ 'a' :: 'w' :: 'a' :: 'i' :: 't' :: [] := by
  intro fuel
  induction fuel with
  | zero =>
    intro s hlen pre c run post h _ _ _
    have hnil : s = [] := List.eq_nil_of_length_eq_zero (Nat.le_zero.mp hlen)
    subst hnil
    simp only [awaitSubA] at h
    cases pre <;> simp at h
  | succ fuel ih =>
    intro s hlen pre c run post h hws hrun hwd
    cases s with
    | nil =>
      simp only [awaitSubA] at h
      cases pre <;> simp at h
    | cons a rest =>
      have hrl : rest.length ≤ fuel := by
        simpa using Nat.succ_le_succ_iff.mp (by simpa using hlen)
      by_cases ha : isWsChar a = true
      · cases hm : fetchMatch rest with
        | none =>
          simp only [awaitSubA, ha, if_true, hm] at h
          cases pre with
          | nil =>
            have htl : awaitSubA fuel rest
                = run ++ '.' :: 'g' :: 'e' :: 't' :: '(' :: post := by
              simpa using congrArg (List.tail) h
            have hre : awaitSubA fuel rest
                = (run ++ '.' :: 'g' :: 'e' :: 't' :: []) ++ '(' :: post := by
              rw [htl]; simp
            have hwget : ∀ x ∈ run ++ '.' :: 'g' :: 'e' :: 't' :: [],
                isWordDotChar x = true := by
              intro x hx
              rcases List.mem_append.mp hx with hx | hx
              · exact hwd x hx
              · rcases hx with _ | ⟨_, _ | ⟨_, _ | ⟨_, _ | ⟨_, hc0⟩⟩⟩⟩ <;>
                  first | decide | cases hc0
            obtain ⟨post', hrest⟩ :=
              awaitSubA_paren_head fuel rest hrl _ post hre hwget
            have hshape : rest = run ++ '.' :: 'g' :: 'e' :: 't' :: '(' :: post' := by
              rw [hrest]; simp
            rw [hshape, fetchMatch_of_shape run post' hrun hwd] at hm
            cases hm
          | cons p pre' =>
            have htl : awaitSubA fuel rest
                = pre' ++ c :: (run ++ '.' :: 'g' :: 'e' :: 't' :: '(' :: post) := by
              simpa using congrArg (List.tail) h
            obtain ⟨pre₀, hp⟩ := ih rest hrl pre' c run post htl hws hrun hwd
            exact ⟨p :: pre₀, by rw [hp]; rfl⟩
        | some pr =>
          obtain ⟨rn, tl⟩ := pr
          obtain ⟨hrest, hrnwd, rn₀, hrnsplit⟩ := fetchMatch_some_spec hm
          have htll : tl.length ≤ fuel := by
            have : rest.length = rn.length + 1 + tl.length := by
              rw [hrest]; simp; omega
            omega
          have hstep : awaitSubA (fuel + 1) (a :: rest)
              = a :: 'a' :: 'w' :: 'a' :: 'i' :: 't' :: ' ' ::
                  (rn ++ '(' :: awaitSubA fuel tl) := by
            simp [awaitSubA, ha, hm]
          rw [hstep] at h
          -- h : a :: 'a'::'w'::'a'::'i'::'t'::' ':: (rn ++ '(' :: …)
          --       = pre ++ c :: (run ++ ".get(" ++ post)
          rcases pre with _ | ⟨p1, pre⟩
          · -- c = a and run-text lines up with "await " — impossible
            have htl : run ++ '.' :: 'g' :: 'e' :: 't' :: '(' :: post
                = 'a' :: 'w' :: 'a' :: 'i' :: 't' :: ' ' :: (rn ++ '(' :: awaitSubA fuel tl) := by
              have := congrArg (List.tail) h
              simpa using this.symm
            exact absurd htl (run_not_await run post _ hwd)
          have h1 : p1 = a := by simpa using (congrArg (List.head?) h).symm
          have h' : 'a' :: 'w' :: 'a' :: 'i' :: 't' :: ' ' :: (rn ++ '(' :: awaitSubA fuel tl)
              = pre ++ c :: (run ++ '.' :: 'g' :: 'e' :: 't' :: '(' :: post) := by
            simpa using congrArg (List.tail) h
          rcases pre with _ | ⟨p2, pre⟩
          · have hc : c = 'a' := by simpa using (congrArg (List.head?) h').symm
            rw [hc] at hws
            exact absurd hws (by decide)
          have h2 : p2 = 'a' := by simpa using (congrArg (List.head?) h').symm
          have h'' : 'w' :: 'a' :: 'i' :: 't' :: ' ' :: (rn ++ '(' :: awaitSubA fuel tl)
              = pre ++ c :: (run ++ '.' :: 'g' :: 'e' :: 't' :: '(' :: post) := by
            simpa using congrArg (List.tail) h'
          rcases pre with _ | ⟨p3, pre⟩
          · have hc : c = 'w' := by simpa using (congrArg (List.head?) h'').symm
            rw [hc] at hws
            exact absurd hws (by decide)
          have h3 : p3 = 'w' := by simpa using (congrArg (List.head?) h'').symm
          have h3' : 'a' :: 'i' :: 't' :: ' ' :: (rn ++ '(' :: awaitSubA fuel tl)
              = pre ++ c :: (run ++ '.' :: 'g' :: 'e' :: 't' :: '(' :: post) := by
            simpa using congrArg (List.tail) h''
          rcases pre with _ | ⟨p4, pre⟩
          · have hc : c = 'a' := by simpa using (congrArg (List.head?) h3').symm
            rw [hc] at hws
            exact absurd hws (by decide)
          have h4 : p4 = 'a' := by simpa using (congrArg (List.head?) h3').symm
          have h4' : 'i' :: 't' :: ' ' :: (rn ++ '(' :: awaitSubA fuel tl)
              = pre ++ c :: (run ++ '.' :: 'g' :: 'e' :: 't' :: '(' :: post) := by
            simpa using congrArg (List.tail) h3'
          rcases pre with _ | ⟨p5, pre⟩
          · have hc : c = 'i' := by simpa using (congrArg (List.head?) h4').symm
            rw [hc] at hws
            exact absurd hws (by decide)
          have h5 : p5 = 'i' := by simpa using (congrArg (List.head?) h4').symm
          have h5' : 't' :: ' ' :: (rn ++ '(' :: awaitSubA fuel tl)
              = pre ++ c :: (run ++ '.' :: 'g' :: 'e' :: 't' :: '(' :: post) := by
            simpa using congrArg (List.tail) h4'
          rcases pre with _ | ⟨p6, pre⟩
          · have hc : c = 't' := by simpa using (congrArg (List.head?) h5').symm
            rw [hc] at hws
            exact absurd hws (by decide)
          have h6 : p6 = 't' := by simpa using (congrArg (List.head?) h5').symm
          have h6' : ' ' :: (rn ++ '(' :: awaitSubA fuel tl)
              = pre ++ c :: (run ++ '.' :: 'g' :: 'e' :: 't' :: '(' :: post) := by
            simpa using congrArg (List.tail) h5'
          rcases pre with _ | ⟨p7, pre⟩
          · -- the marked occurrence itself: the six preceding characters are
            -- the original whitespace and the emitted marker
            exact ⟨[p1], by simp [h2, h3, h4, h5, h6]⟩
          have h7 : p7 = ' ' := by simpa using (congrArg (List.head?) h6').symm
          have h7' : rn ++ '(' :: awaitSubA fuel tl
              = pre ++ c :: (run ++ '.' :: 'g' :: 'e' :: 't' :: '(' :: post) := by
            simpa using congrArg (List.tail) h6'
          have hnws : ∀ x ∈ rn ++ '(' :: [], isWsChar x = false := by
            intro x hx
            rcases List.mem_append.mp hx with hx | hx
            · exact wordDot_not_ws (hrnwd x hx)
            · rcases hx with _ | ⟨_, hc0⟩
              · decide
              · cases hc0
          have hsplit' : pre ++ c :: (run ++ '.' :: 'g' :: 'e' :: 't' :: '(' :: post)
              = (rn ++ '(' :: []) ++ awaitSubA fuel tl := by
            rw [← h7']; simp
          obtain ⟨pre'', hpre'', hY⟩ :=
            noWs_split (rn ++ '(' :: []) pre c _ (awaitSubA fuel tl) hnws hws hsplit'
          obtain ⟨pre₀, hp₀⟩ := ih tl htll pre'' c run post hY.symm hws hrun hwd
          refine ⟨p1 :: p2 :: p3 :: p4 :: p5 :: p6 :: p7 :: (rn ++ '(' :: pre₀), ?_⟩
          rw [hpre'', hp₀]
          simp
      · have ha' : isWsChar a = false := by
          cases haa : isWsChar a
          · rfl
          · exact absurd haa ha
        simp only [awaitSubA, ha', Bool.false_eq_true, if_false] at h
        cases pre with
        | nil =>
          have hca : c = a := by simpa using (congrArg (List.head?) h).symm
          rw [hca] at hws
          rw [hws] at ha'
          cases ha'
        | cons p pre' =>
          have htl : awaitSubA fuel rest
              = pre' ++ c :: (run ++ '.' :: 'g' :: 'e' :: 't' :: '(' :: post) := by
            simpa using congrArg (List.tail) h
          obtain ⟨pre₀, hp⟩ := ih rest hrl pre' c run post htl hws hrun hwd
          exact ⟨p :: pre₀, by rw [hp]; rfl⟩

/-- C3 (amended): in the output of the wait-marker insertion step of
`repair_code`, every occurrence of the fetch-call pattern — a whitespace
character, a non-empty `[\w.]` path, then literally `.get(` — is immediately
preceded by the marker `await`; the counterexample above shows the other
half of the original claim fails: an already-marked call is not left
unchanged but receives a duplicate marker. -/
theorem c3_awaitSub_marks_all (s pre : List Char) (c : Char) (run post : List Char)
    (heq : awaitSub s = pre ++ c :: (run ++ '.' :: 'g' :: 'e' :: 't' :: '(' :: post))
    (hws : isWsChar c = true) (hrun : run ≠ [])
    (hwd : ∀ x ∈ run, isWordDotChar x = true) :
    ∃ pre₀, pre = pre₀ ++ 'a' :: 'w' :: 'a' :: 'i' :: 't' :: [] :=
  awaitSubA_marks s.length s (le_refl _) pre c run post heq hws hrun hwd

/-- Closed instance for C3: the fragment `" client.get(x"` is repaired to
`" await client.get(x"`, whose only fetch-call occurrence is preceded by
`await`. -/
theorem c3_awaitSub_marks_all_witness :
    ∃ pre₀, ([' ', 'a', 'w', 'a', 'i', 't'] : List Char)
      = pre₀ ++ 'a' :: 'w' :: 'a' :: 'i' :: 't' :: [] :=
  c3_awaitSub_marks_all " client.get(x".data [' ', 'a', 'w', 'a', 'i', 't'] ' '
    ['c', 'l', 'i', 'e', 'n', 't'] ['x'] (by decide) (by decide) (by decide)
    (by decide)

/-! ## Non-occurrence transport (towards C5 and C2)

A placeholder token contains no newline and no tab, does not begin or end
with a space, and contains no two adjacent spaces; these facts let
non-occurrence survive every step that follows the placeholder substitution
inside `repair_code`. -/

theorem not_occ_of_append_right {t a b : List Char}
    (h : occursIn t (a ++ b) = false) : occursIn t b = false := by
  cases hb : occursIn t b
  · rfl
  · have := occursIn_append_right a hb
    rw [h] at this
    cases this

theorem not_occ_of_append_left {t a b : List Char}
    (h : occursIn t (a ++ b) = false) : occursIn t a = false := by
  cases ha : occursIn t a
  · rfl
  · have := occursIn_append_left b ha
    rw [h] at this
    cases this

/-- A newline-free pattern prefixing `a ++ '\n' :: b` already prefixes `a`. -/
theorem nl_prefix : ∀ (a : List Char) {t b : List Char}, '\n' ∉ t →
    t <+: (a ++ '\n' :: b) → t <+: a := by
  intro a
  induction a with
  | nil =>
    intro t b hmem h
    cases t with
    | nil => exact List.nil_prefix
    | cons x t' =>
      obtain ⟨r, hr⟩ := h
      injection hr with h1 _
      exact absurd (List.mem_cons.mpr (Or.inl h1.symm)) hmem
  | cons y a ih =>
    intro t b hmem h
    cases t with
    | nil => exact List.nil_prefix
    | cons x t' =>
      obtain ⟨r, hr⟩ := h
      injection hr with h1 h2
      obtain ⟨r', hr'⟩ := ih (fun hm => hmem (List.mem_cons_of_mem _ hm)) ⟨r, h2⟩
      exact ⟨r', by rw [List.cons_append, hr', h1]⟩

/-- Non-occurrence survives gluing two clean pieces with a newline, for a
newline-free pattern. -/
theorem not_occ_append_nl {t : List Char} (hnl : '\n' ∉ t) (hne : t ≠ []) :
    ∀ a b, occursIn t a = false → occursIn t b = false →
      occursIn t (a ++ '\n' :: b) = false := by
  intro a
  induction a with
  | nil =>
    intro b _ hb
    rw [List.nil_append, occursIn_cons]
    have hpf : t.isPrefixOf ('\n' :: b) = false := by
      cases hp : t.isPrefixOf ('\n' :: b)
      · rfl
      · exfalso
        obtain ⟨r, hr⟩ := List.isPrefixOf_iff_prefix.mp hp
        cases t with
        | nil => exact hne rfl
        | cons x t' =>
          injection hr with h1 _
          exact hnl (List.mem_cons.mpr (Or.inl h1.symm))
    simp [hpf, hb]
  | cons y a ih =>
    intro b ha hb
    rw [List.cons_append, occursIn_cons]
    have htail : occursIn t (a ++ '\n' :: b) = false :=
      ih b (not_occursIn_tail ha) hb
    have hpf : t.isPrefixOf (y :: (a ++ '\n' :: b)) = false := by
      cases hp : t.isPrefixOf (y :: (a ++ '\n' :: b))
      · rfl
      · exfalso
        have hpp : t <+: (y :: a) ++ '\n' :: b := by
          rw [List.cons_append]
          exact List.isPrefixOf_iff_prefix.mp hp
        have hocc := occursIn_of_prefix ( nl_prefix (y :: a) hnl hpp)
        have : (false : Bool) = true := ha ▸ hocc
        cases this
    simp [hpf, htail]

/-- Every line produced by the splitting scan carries no occurrence of `t`
when the assembled input carries none.  (The flag is only ever raised with
an empty accumulator.) -/
theorem slA_member_no_occ : ∀ (s cur : List Char) (flag : Bool) {t l : List Char},
    (flag = true → cur = []) →
    occursIn t (cur.reverse ++ s) = false → l ∈ slA flag s cur →
    occursIn t l = false := by
  intro s
  induction s with
  | nil =>
    intro cur flag t l _ h hl
    simp only [slA] at hl
    by_cases hc : cur.isEmpty
    · simp [hc] at hl
    · simp [hc] at hl
      subst hl
      simpa using not_occ_of_append_left h
  | cons c s ih =>
    intro cur flag t l hfc h hl
    simp only [slA] at hl
    by_cases h1 : (flag && c = '\n') = true
    · rw [if_pos h1] at hl
      have hflag : flag = true := by
        rcases Bool.and_eq_true_iff.mp h1 with ⟨hf, _⟩
        exact hf
      have hcur : cur = [] := hfc hflag
      subst hcur
      refine ih [] false (by simp) ?_ hl
      simp only [List.reverse_nil, List.nil_append] at h ⊢
      exact not_occursIn_tail h
    · rw [if_neg h1] at hl
      by_cases h2 : c = '\r'
      · rw [if_pos h2] at hl
        rcases List.mem_cons.mp hl with hl | hl
        · subst hl
          exact not_occ_of_append_left h
        · refine ih [] true (fun _ => rfl) ?_ hl
          simp only [List.reverse_nil, List.nil_append]
          exact not_occursIn_tail (not_occ_of_append_right h)
      · rw [if_neg h2] at hl
        by_cases h3 : isNlChar c = true
        · rw [if_pos h3] at hl
          rcases List.mem_cons.mp hl with hl | hl
          · subst hl
            exact not_occ_of_append_left h
          · refine ih [] false (by simp) ?_ hl
            simp only [List.reverse_nil, List.nil_append]
            exact not_occursIn_tail (not_occ_of_append_right h)
        · rw [if_neg h3] at hl
          refine ih (c :: cur) false (by simp) ?_ hl
          have : (c :: cur).reverse ++ s = cur.reverse ++ c :: s := by simp
          rw [this]
          exact h

/-- A prefix of the tab-expanded text that neither contains two adjacent
spaces nor ends in a space is a prefix of the original text. -/
theorem expandTabs_pfx : ∀ (r u : List Char),
    occursIn [' ', ' '] u = false → u.getLast? ≠ some ' ' →
    u <+: expandTabs r → u <+: r := by
  intro r
  induction r with
  | nil =>
    intro u _ _ h
    exact h
  | cons c r ih =>
    intro u hds hlast h
    by_cases hc : c = '\t'
    · subst hc
      rw [show expandTabs ('\t' :: r) = ' ' :: ' ' :: ' ' :: ' ' :: expandTabs r from
        by simp [expandTabs]] at h
      cases u with
      | nil => exact List.nil_prefix
      | cons x u' =>
        obtain ⟨w, hw⟩ := h
        injection hw with h1 h2
        subst h1
        cases u' with
        | nil => exact absurd rfl hlast
        | cons y u'' =>
          injection h2 with h3 _
          subst h3
          have : occursIn [' ', ' '] (' ' :: ' ' :: u'') = true :=
            occursIn_of_isPrefixOf (by simp [List.isPrefixOf])
          rw [this] at hds
          cases hds
    · rw [show expandTabs (c :: r) = c :: expandTabs r from by simp [expandTabs, hc]] at h
      cases u with
      | nil => exact List.nil_prefix
      | cons x u' =>
        obtain ⟨w, hw⟩ := h
        injection hw with h1 h2
        have hl' : u'.getLast? ≠ some ' ' := by
          cases u' with
          | nil => simp
          | cons y u'' => simpa [List.getLast?_cons_cons] using hlast
        obtain ⟨w', hw'⟩ := ih u' (not_occursIn_tail hds) hl' ⟨w, h2⟩
        exact ⟨w', by rw [List.cons_append, hw', h1]⟩

/-- Tab expansion preserves non-occurrence of a pattern that contains no
tab, no two adjacent spaces, and neither begins nor ends with a space. -/
theorem expandTabs_no_occ : ∀ (l : List Char) {t : List Char},
    t ≠ [] → t.head? ≠ some ' ' → t.getLast? ≠ some ' ' →
    occursIn [' ', ' '] t = false →
    occursIn t l = false → occursIn t (expandTabs l) = false := by
  intro l
  induction l with
  | nil =>
    intro t _ _ _ _ h
    exact h
  | cons c r ih =>
    intro t hne hhd hlast hds h
    have hR : occursIn t (expandTabs r) = false :=
      ih hne hhd hlast hds (not_occursIn_tail h)
    by_cases hc : c = '\t'
    · subst hc
      rw [show expandTabs ('\t' :: r) = ' ' :: ' ' :: ' ' :: ' ' :: expandTabs r from
        by simp [expandTabs]]
      have hstep : ∀ X, occursIn t X = false → occursIn t (' ' :: X) = false := by
        intro X hX
        rw [occursIn_cons]
        have hpf : t.isPrefixOf (' ' :: X) = false := by
          cases t with
          | nil => exact absurd rfl hne
          | cons x t' =>
            cases hp : List.isPrefixOf (x :: t') (' ' :: X)
            · rfl
            · obtain ⟨w, hw⟩ := List.isPrefixOf_iff_prefix.mp hp
              injection hw with h1 _
              exact absurd (by simp [h1]) hhd
        simp [hpf, hX]
      exact hstep _ (hstep _ (hstep _ (hstep _ hR)))
    · rw [show expandTabs (c :: r) = c :: expandTabs r from by simp [expandTabs, hc]]
      rw [occursIn_cons]
      have hpf : t.isPrefixOf (c :: expandTabs r) = false := by
        cases hp : t.isPrefixOf (c :: expandTabs r)
        · rfl
        · exfalso
          obtain ⟨w, hw⟩ := List.isPrefixOf_iff_prefix.mp hp
          cases t with
          | nil => exact hne rfl
          | cons x t' =>
            injection hw with h1 h2
            have hl' : t'.getLast? ≠ some ' ' := by
              cases t' with
              | nil => simp
              | cons y t'' => simpa [List.getLast?_cons_cons] using hlast
            obtain ⟨w', hw'⟩ :=
              expandTabs_pfx r t' (not_occursIn_tail hds) hl' ⟨w, h2⟩
            have hpr : (x :: t') <+: (c :: r) :=
              ⟨w', by rw [List.cons_append, hw', h1]⟩
            have hocc := occursIn_of_prefix hpr
            have : (false : Bool) = true := h ▸ hocc
            cases this
      simp [hpf, hR]

/-- Joining clean lines with newlines preserves non-occurrence of a
newline-free pattern. -/
theorem joinNl_no_occ {t : List Char} (hnl : '\n' ∉ t) (hne : t ≠ []) :
    ∀ ls, (∀ l ∈ ls, occursIn t l = false) → occursIn t (joinNl ls) = false := by
  intro ls
  induction ls with
  | nil =>
    intro _
    cases t with
    | nil => exact absurd rfl hne
    | cons x t' => rfl
  | cons l ls ih =>
    intro hall
    cases ls with
    | nil => simpa [joinNl] using hall l (by simp)
    | cons l₂ ls₂ =>
      rw [show joinNl (l :: l₂ :: ls₂) = l ++ '\n' :: joinNl (l₂ :: ls₂) from rfl]
      exact not_occ_append_nl hnl hne l _ (hall l (by simp))
        (ih (fun x hx => hall x (by simp [hx])))

theorem trimEnd_prefix (y : List Char) : trimEnd y <+: y := by
  rw [trimEnd]
  have h := List.reverse_prefix.mpr (List.dropWhile_suffix (l := y.reverse) isWsChar)
  simpa using h

/-- Stripping preserves non-occurrence (the stripped text is an infix). -/
theorem not_occ_pyStrip {t s : List Char} (h : occursIn t s = false) :
    occursIn t (pyStrip s) = false := by
  cases ho : occursIn t (pyStrip s)
  · rfl
  · exfalso
    have h1 : occursIn t (trimStart s) = true := by
      obtain ⟨w, hw⟩ := trimEnd_prefix (trimStart s)
      rw [← hw]
      exact occursIn_append_left w ho
    have h2 : occursIn t s = true := by
      obtain ⟨w, hw⟩ := List.dropWhile_suffix (l := s) isWsChar
      rw [show trimStart s = s.dropWhile isWsChar from rfl] at h1
      rw [← hw]
      exact occursIn_append_right w h1
    rw [h] at h2
    cases h2

theorem tokenFree_spec {u : List Char} (h : tokenFree u = true) :
    ∀ t ∈ placeholderTokens, occursIn t u = false := by
  rw [tokenFree, List.all_eq_true] at h
  intro t ht
  simpa using h t ht

/-- The import/entry-point/indentation steps preserve non-occurrence of any
pattern with the stated placeholder-token shape that occurs neither in the
input nor in the inserted texts. -/
theorem finishRepair_no_occ {t s : List Char}
    (hne : t ≠ []) (hnl : '\n' ∉ t)
    (hhd : t.head? ≠ some ' ') (hlast : t.getLast? ≠ some ' ')
    (hds : occursIn [' ', ' '] t = false)
    (hih : occursIn t "import httpx".data = false)
    (hir : occursIn t "import re".data = false)
    (hmn : occursIn t "\nasync def main():\n    pass\n".data = false)
    (h : occursIn t s = false) :
    occursIn t (finishRepair s) = false := by
  rw [finishRepair]
  set s₁ := if occursIn "import httpx".data s = true then s
            else "import httpx\n".data ++ s with hs₁
  have h1 : occursIn t s₁ = false := by
    rw [hs₁]
    split
    · exact h
    · rw [show ("import httpx\n".data ++ s) = "import httpx".data ++ '\n' :: s from rfl]
      exact not_occ_append_nl hnl hne _ s hih h
  set s₂ := if occursIn "import re".data s₁ = true then s₁
            else "import re\n".data ++ s₁ with hs₂
  have h2 : occursIn t s₂ = false := by
    rw [hs₂]
    split
    · exact h1
    · rw [show ("import re\n".data ++ s₁) = "import re".data ++ '\n' :: s₁ from rfl]
      exact not_occ_append_nl hnl hne _ s₁ hir h1
  set s₃ := if occursIn "async def main".data s₂ = true then s₂
            else s₂ ++ "\n\nasync def main():\n    pass\n".data with hs₃
  have h3 : occursIn t s₃ = false := by
    rw [hs₃]
    split
    · exact h2
    · rw [show (s₂ ++ "\n\nasync def main():\n    pass\n".data)
          = s₂ ++ '\n' :: "\nasync def main():\n    pass\n".data from rfl]
      exact not_occ_append_nl hnl hne s₂ _ h2 hmn
  have h4 : ∀ l ∈ pySplitlines s₃, occursIn t l = false := by
    intro l hl
    exact slA_member_no_occ s₃ [] false (by simp) (by simpa using h3) hl
  have h5 : ∀ l ∈ (pySplitlines s₃).map expandTabs, occursIn t l = false := by
    intro l hl
    obtain ⟨l₀, hl₀, rfl⟩ := List.mem_map.mp hl
    exact expandTabs_no_occ l₀ hne hhd hlast hds (h4 l₀ hl₀)
  exact not_occ_pyStrip (joinNl_no_occ hnl hne _ h5)

/-- Token-freeness survives the tail of the repair pipeline. -/
theorem finishRepair_tokenFree {s : List Char} (h : tokenFree s = true) :
    tokenFree (finishRepair s) = true := by
  rw [tokenFree, List.all_eq_true]
  intro t ht
  have hocc : occursIn t s = false := tokenFree_spec h t ht
  have hshape : t ∈ placeholderTokens := ht
  have : t = "<the quiz URL>".data ∨ t = "<the quiz URL you fetched>".data ∨
      t = "<quiz url>".data ∨ t = "<quiz_url>".data ∨
      t = "YOUR_START_URL_HERE".data ∨ t = "https://example.com/quiz".data ∨
      t = "<submit url>".data ∨ t = "<the quiz submission URL>".data := by
    simpa [placeholderTokens, repairPh] using hshape
  have hgoal : occursIn t (finishRepair s) = false := by
    rcases this with rfl | rfl | rfl | rfl | rfl | rfl | rfl | rfl <;>
      exact finishRepair_no_occ (by decide) (by decide) (by decide) (by decide)
        (by decide) (by decide) (by decide) (by decide) hocc
  simp [hgoal]

/-! ## `str.replace` of the pattern by itself, and the C5 claim -/

theorem replAux_nil (t u : List Char) : ∀ f, replAux t u f [] = [] := by
  intro f
  cases f <;> rfl

theorem pyReplace_self {t : List Char} (hne : t ≠ []) :
    ∀ u, pyReplace t t u = u := by
  intro u
  cases t with
  | nil => exact absurd rfl hne
  | cons c t' =>
    have hp : (c :: t').isPrefixOf (c :: t') = true :=
      List.isPrefixOf_iff_prefix.mpr (List.prefix_refl _)
    rw [pyReplace, if_neg (by simp)]
    rw [show (c :: t').length = t'.length + 1 from rfl]
    simp only [replAux, hp, if_true]
    rw [show List.drop (c :: t').length (c :: t') = [] from List.drop_length _]
    rw [replAux_nil]
    simp

theorem substId21 :
    ∀ v, pyReplace (['<', 't', 'h', 'e', ' ', 'q', 'u', 'i', 'z', ' ', 'U', 'R', 'L', ' ', 'y', 'o', 'u', ' ', 'f', 'e', 't', 'c', 'h', 'e', 'd', '>'] : List Char) ['<', 't', 'h', 'e', ' ', 'q', 'u', 'i', 'z', ' ', 'U', 'R', 'L', '>'] v = ['<', 't', 'h', 'e', ' ', 'q', 'u', 'i', 'z', ' ', 'U', 'R', 'L', ' ', 'y', 'o', 'u', ' ', 'f', 'e', 't', 'c', 'h', 'e', 'd', '>'] :=
  fun v => pyReplace_eq_self v (by decide)

theorem substId31 :
    ∀ v, pyReplace (['<', 'q', 'u', 'i', 'z', ' ', 'u', 'r', 'l', '>'] : List Char) ['<', 't', 'h', 'e', ' ', 'q', 'u', 'i', 'z', ' ', 'U', 'R', 'L', '>'] v = ['<', 'q', 'u', 'i', 'z', ' ', 'u', 'r', 'l', '>'] :=
  fun v => pyReplace_eq_self v (by decide)

theorem substId32 :
    ∀ v, pyReplace (['<', 'q', 'u', 'i', 'z', ' ', 'u', 'r', 'l', '>'] : List Char) ['<', 't', 'h', 'e', ' ', 'q', 'u', 'i', 'z', ' ', 'U', 'R', 'L', ' ', 'y', 'o', 'u', ' ', 'f', 'e', 't', 'c', 'h', 'e', 'd', '>'] v = ['<', 'q', 'u', 'i', 'z', ' ', 'u', 'r', 'l', '>'] :=
  fun v => pyReplace_eq_self v (by decide)

theorem substId41 :
    ∀ v, pyReplace (['<', 'q', 'u', 'i', 'z', '_', 'u', 'r', 'l', '>'] : List Char) ['<', 't', 'h', 'e', ' ', 'q', 'u', 'i', 'z', ' ', 'U', 'R', 'L', '>'] v = ['<', 'q', 'u', 'i', 'z', '_', 'u', 'r', 'l', '>'] :=
  fun v => pyReplace_eq_self v (by decide)

theorem substId42 :
    ∀ v, pyReplace (['<', 'q', 'u', 'i', 'z', '_', 'u', 'r', 'l', '>'] : List Char) ['<', 't', 'h', 'e', ' ', 'q', 'u', 'i', 'z', ' ', 'U', 'R', 'L', ' ', 'y', 'o', 'u', ' ', 'f', 'e', 't', 'c', 'h', 'e', 'd', '>'] v = ['<', 'q', 'u', 'i', 'z', '_', 'u', 'r', 'l', '>'] :=
  fun v => pyReplace_eq_self v (by decide)

theorem substId43 :
    ∀ v, pyReplace (['<', 'q', 'u', 'i', 'z', '_', 'u', 'r', 'l', '>'] : List Char) ['<', 'q', 'u', 'i', 'z', ' ', 'u', 'r', 'l', '>'] v = ['<', 'q', 'u', 'i', 'z', '_', 'u', 'r', 'l', '>'] :=
  fun v => pyReplace_eq_self v (by decide)

theorem substId51 :
    ∀ v, pyReplace (['Y', 'O', 'U', 'R', '_', 'S', 'T', 'A', 'R', 'T', '_', 'U', 'R', 'L', '_', 'H', 'E', 'R', 'E'] : List Char) ['<', 't', 'h', 'e', ' ', 'q', 'u', 'i', 'z', ' ', 'U', 'R', 'L', '>'] v = ['Y', 'O', 'U', 'R', '_', 'S', 'T', 'A', 'R', 'T', '_', 'U', 'R', 'L', '_', 'H', 'E', 'R', 'E'] :=
  fun v => pyReplace_eq_self v (by decide)

theorem substId52 :
    ∀ v, pyReplace (['Y', 'O', 'U', 'R', '_', 'S', 'T', 'A', 'R', 'T', '_', 'U', 'R', 'L', '_', 'H', 'E', 'R', 'E'] : List Char) ['<', 't', 'h', 'e', ' ', 'q', 'u', 'i', 'z', ' ', 'U', 'R', 'L', ' ', 'y', 'o', 'u', ' ', 'f', 'e', 't', 'c', 'h', 'e', 'd', '>'] v = ['Y', 'O', 'U', 'R', '_', 'S', 'T', 'A', 'R', 'T', '_', 'U', 'R', 'L', '_', 'H', 'E', 'R', 'E'] :=
  fun v => pyReplace_eq_self v (by decide)

theorem substId53 :
    ∀ v, pyReplace (['Y', 'O', 'U', 'R', '_', 'S', 'T', 'A', 'R', 'T', '_', 'U', 'R', 'L', '_', 'H', 'E', 'R', 'E'] : List Char) ['<', 'q', 'u', 'i', 'z', ' ', 'u', 'r', 'l', '>'] v = ['Y', 'O', 'U', 'R', '_', 'S', 'T', 'A', 'R', 'T', '_', 'U', 'R', 'L', '_', 'H', 'E', 'R', 'E'] :=
  fun v => pyReplace_eq_self v (by decide)

theorem substId54 :
    ∀ v, pyReplace (['Y', 'O', 'U', 'R', '_', 'S', 'T', 'A', 'R', 'T', '_', 'U', 'R', 'L', '_', 'H', 'E', 'R', 'E'] : List Char) ['<', 'q', 'u', 'i', 'z', '_', 'u', 'r', 'l', '>'] v = ['Y', 'O', 'U', 'R', '_', 'S', 'T', 'A', 'R', 'T', '_', 'U', 'R', 'L', '_', 'H', 'E', 'R', 'E'] :=
  fun v => pyReplace_eq_self v (by decide)

theorem substId61 :
    ∀ v, pyReplace (['h', 't', 't', 'p', 's', ':', '/', '/', 'e', 'x', 'a', 'm', 'p', 'l', 'e', '.', 'c', 'o', 'm', '/', 'q', 'u', 'i', 'z'] : List Char) ['<', 't', 'h', 'e', ' ', 'q', 'u', 'i', 'z', ' ', 'U', 'R', 'L', '>'] v = ['h', 't', 't', 'p', 's', ':', '/', '/', 'e', 'x', 'a', 'm', 'p', 'l', 'e', '.', 'c', 'o', 'm', '/', 'q', 'u', 'i', 'z'] :=
  fun v => pyReplace_eq_self v (by decide)

theorem substId62 :
    ∀ v, pyReplace (['h', 't', 't', 'p', 's', ':', '/', '/', 'e', 'x', 'a', 'm', 'p', 'l', 'e', '.', 'c', 'o', 'm', '/', 'q', 'u', 'i', 'z'] : List Char) ['<', 't', 'h', 'e', ' ', 'q', 'u', 'i', 'z', ' ', 'U', 'R', 'L', ' ', 'y', 'o', 'u', ' ', 'f', 'e', 't', 'c', 'h', 'e', 'd', '>'] v = ['h', 't', 't', 'p', 's', ':', '/', '/', 'e', 'x', 'a', 'm', 'p', 'l', 'e', '.', 'c', 'o', 'm', '/', 'q', 'u', 'i', 'z'] :=
  fun v => pyReplace_eq_self v (by decide)

theorem substId63 :
    ∀ v, pyReplace (['h', 't', 't', 'p', 's', ':', '/', '/', 'e', 'x', 'a', 'm', 'p', 'l', 'e', '.', 'c', 'o', 'm', '/', 'q', 'u', 'i', 'z'] : List Char) ['<', 'q', 'u', 'i', 'z', ' ', 'u', 'r', 'l', '>'] v = ['h', 't', 't', 'p', 's', ':', '/', '/', 'e', 'x', 'a', 'm', 'p', 'l', 'e', '.', 'c', 'o', 'm', '/', 'q', 'u', 'i', 'z'] :=
  fun v => pyReplace_eq_self v (by decide)

theorem substId64 :
    ∀ v, pyReplace (['h', 't', 't', 'p', 's', ':', '/', '/', 'e', 'x', 'a', 'm', 'p', 'l', 'e', '.', 'c', 'o', 'm', '/', 'q', 'u', 'i', 'z'] : List Char) ['<', 'q', 'u', 'i', 'z', '_', 'u', 'r', 'l', '>'] v = ['h', 't', 't', 'p', 's', ':', '/', '/', 'e', 'x', 'a', 'm', 'p', 'l', 'e', '.', 'c', 'o', 'm', '/', 'q', 'u', 'i', 'z'] :=
  fun v => pyReplace_eq_self v (by decide)

theorem substId65 :
    ∀ v, pyReplace (['h', 't', 't', 'p', 's', ':', '/', '/', 'e', 'x', 'a', 'm', 'p', 'l', 'e', '.', 'c', 'o', 'm', '/', 'q', 'u', 'i', 'z'] : List Char) ['Y', 'O', 'U', 'R', '_', 'S', 'T', 'A', 'R', 'T', '_', 'U', 'R', 'L', '_', 'H', 'E', 'R', 'E'] v = ['h', 't', 't', 'p', 's', ':', '/', '/', 'e', 'x', 'a', 'm', 'p', 'l', 'e', '.', 'c', 'o', 'm', '/', 'q', 'u', 'i', 'z'] :=
  fun v => pyReplace_eq_self v (by decide)

theorem substId71 :
    ∀ v, pyReplace (['<', 's', 'u', 'b', 'm', 'i', 't', ' ', 'u', 'r', 'l', '>'] : List Char) ['<', 't', 'h', 'e', ' ', 'q', 'u', 'i', 'z', ' ', 'U', 'R', 'L', '>'] v = ['<', 's', 'u', 'b', 'm', 'i', 't', ' ', 'u', 'r', 'l', '>'] :=
  fun v => pyReplace_eq_self v (by decide)

theorem substId72 :
    ∀ v, pyReplace (['<', 's', 'u', 'b', 'm', 'i', 't', ' ', 'u', 'r', 'l', '>'] : List Char) ['<', 't', 'h', 'e', ' ', 'q', 'u', 'i', 'z', ' ', 'U', 'R', 'L', ' ', 'y', 'o', 'u', ' ', 'f', 'e', 't', 'c', 'h', 'e', 'd', '>'] v = ['<', 's', 'u', 'b', 'm', 'i', 't', ' ', 'u', 'r', 'l', '>'] :=
  fun v => pyReplace_eq_self v (by decide)

theorem substId73 :
    ∀ v, pyReplace (['<', 's', 'u', 'b', 'm', 'i', 't', ' ', 'u', 'r', 'l', '>'] : List Char) ['<', 'q', 'u', 'i', 'z', ' ', 'u', 'r', 'l', '>'] v = ['<', 's', 'u', 'b', 'm', 'i', 't', ' ', 'u', 'r', 'l', '>'] :=
  fun v => pyReplace_eq_self v (by decide)

theorem substId74 :
    ∀ v, pyReplace (['<', 's', 'u', 'b', 'm', 'i', 't', ' ', 'u', 'r', 'l', '>'] : List Char) ['<', 'q', 'u', 'i', 'z', '_', 'u', 'r', 'l', '>'] v = ['<', 's', 'u', 'b', 'm', 'i', 't', ' ', 'u', 'r', 'l', '>'] :=
  fun v => pyReplace_eq_self v (by decide)

theorem substId75 :
    ∀ v, pyReplace (['<', 's', 'u', 'b', 'm', 'i', 't', ' ', 'u', 'r', 'l', '>'] : List Char) ['Y', 'O', 'U', 'R', '_', 'S', 'T', 'A', 'R', 'T', '_', 'U', 'R', 'L', '_', 'H', 'E', 'R', 'E'] v = ['<', 's', 'u', 'b', 'm', 'i', 't', ' ', 'u', 'r', 'l', '>'] :=
  fun v => pyReplace_eq_self v (by decide)

theorem substId76 :
    ∀ v, pyReplace (['<', 's', 'u', 'b', 'm', 'i', 't', ' ', 'u', 'r', 'l', '>'] : List Char) ['h', 't', 't', 'p', 's', ':', '/', '/', 'e', 'x', 'a', 'm', 'p', 'l', 'e', '.', 'c', 'o', 'm', '/', 'q', 'u', 'i', 'z'] v = ['<', 's', 'u', 'b', 'm', 'i', 't', ' ', 'u', 'r', 'l', '>'] :=
  fun v => pyReplace_eq_self v (by decide)

theorem substId81 :
    ∀ v, pyReplace (['<', 't', 'h', 'e', ' ', 'q', 'u', 'i', 'z', ' ', 's', 'u', 'b', 'm', 'i', 's', 's', 'i', 'o', 'n', ' ', 'U', 'R', 'L', '>'] : List Char) ['<', 't', 'h', 'e', ' ', 'q', 'u', 'i', 'z', ' ', 'U', 'R', 'L', '>'] v = ['<', 't', 'h', 'e', ' ', 'q', 'u', 'i', 'z', ' ', 's', 'u', 'b', 'm', 'i', 's', 's', 'i', 'o', 'n', ' ', 'U', 'R', 'L', '>'] :=
  fun v => pyReplace_eq_self v (by decide)

theorem substId82 :
    ∀ v, pyReplace (['<', 't', 'h', 'e', ' ', 'q', 'u', 'i', 'z', ' ', 's', 'u', 'b', 'm', 'i', 's', 's', 'i', 'o', 'n', ' ', 'U', 'R', 'L', '>'] : List Char) ['<', 't', 'h', 'e', ' ', 'q', 'u', 'i', 'z', ' ', 'U', 'R', 'L', ' ', 'y', 'o', 'u', ' ', 'f', 'e', 't', 'c', 'h', 'e', 'd', '>'] v = ['<', 't', 'h', 'e', ' ', 'q', 'u', 'i', 'z', ' ', 's', 'u', 'b', 'm', 'i', 's', 's', 'i', 'o', 'n', ' ', 'U', 'R', 'L', '>'] :=
  fun v => pyReplace_eq_self v (by decide)

theorem substId83 :
    ∀ v, pyReplace (['<', 't', 'h', 'e', ' ', 'q', 'u', 'i', 'z', ' ', 's', 'u', 'b', 'm', 'i', 's', 's', 'i', 'o', 'n', ' ', 'U', 'R', 'L', '>'] : List Char) ['<', 'q', 'u', 'i', 'z', ' ', 'u', 'r', 'l', '>'] v = ['<', 't', 'h', 'e', ' ', 'q', 'u', 'i', 'z', ' ', 's', 'u', 'b', 'm', 'i', 's', 's', 'i', 'o', 'n', ' ', 'U', 'R', 'L', '>'] :=
  fun v => pyReplace_eq_self v (by decide)

theorem substId84 :
    ∀ v, pyReplace (['<', 't', 'h', 'e', ' ', 'q', 'u', 'i', 'z', ' ', 's', 'u', 'b', 'm', 'i', 's', 's', 'i', 'o', 'n', ' ', 'U', 'R', 'L', '>'] : List Char) ['<', 'q', 'u', 'i', 'z', '_', 'u', 'r', 'l', '>'] v = ['<', 't', 'h', 'e', ' ', 'q', 'u', 'i', 'z', ' ', 's', 'u', 'b', 'm', 'i', 's', 's', 'i', 'o', 'n', ' ', 'U', 'R', 'L', '>'] :=
  fun v => pyReplace_eq_self v (by decide)

theorem substId85 :
    ∀ v, pyReplace (['<', 't', 'h', 'e', ' ', 'q', 'u', 'i', 'z', ' ', 's', 'u', 'b', 'm', 'i', 's', 's', 'i', 'o', 'n', ' ', 'U', 'R', 'L', '>'] : List Char) ['Y', 'O', 'U', 'R', '_', 'S', 'T', 'A', 'R', 'T', '_', 'U', 'R', 'L', '_', 'H', 'E', 'R', 'E'] v = ['<', 't', 'h', 'e', ' ', 'q', 'u', 'i', 'z', ' ', 's', 'u', 'b', 'm', 'i', 's', 's', 'i', 'o', 'n', ' ', 'U', 'R', 'L', '>'] :=
  fun v => pyReplace_eq_self v (by decide)

theorem substId86 :
    ∀ v, pyReplace (['<', 't', 'h', 'e', ' ', 'q', 'u', 'i', 'z', ' ', 's', 'u', 'b', 'm', 'i', 's', 's', 'i', 'o', 'n', ' ', 'U', 'R', 'L', '>'] : List Char) ['h', 't', 't', 'p', 's', ':', '/', '/', 'e', 'x', 'a', 'm', 'p', 'l', 'e', '.', 'c', 'o', 'm', '/', 'q', 'u', 'i', 'z'] v = ['<', 't', 'h', 'e', ' ', 'q', 'u', 'i', 'z', ' ', 's', 'u', 'b', 'm', 'i', 's', 's', 'i', 'o', 'n', ' ', 'U', 'R', 'L', '>'] :=
  fun v => pyReplace_eq_self v (by decide)

theorem substId87 :
    ∀ v, pyReplace (['<', 't', 'h', 'e', ' ', 'q', 'u', 'i', 'z', ' ', 's', 'u', 'b', 'm', 'i', 's', 's', 'i', 'o', 'n', ' ', 'U', 'R', 'L', '>'] : List Char) ['<', 's', 'u', 'b', 'm', 'i', 't', ' ', 'u', 'r', 'l', '>'] v = ['<', 't', 'h', 'e', ' ', 'q', 'u', 'i', 'z', ' ', 's', 'u', 'b', 'm', 'i', 's', 's', 'i', 'o', 'n', ' ', 'U', 'R', 'L', '>'] :=
  fun v => pyReplace_eq_self v (by decide)

theorem substSelf1 :
    ∀ v, pyReplace (['<', 't', 'h', 'e', ' ', 'q', 'u', 'i', 'z', ' ', 'U', 'R', 'L', '>'] : List Char) ['<', 't', 'h', 'e', ' ', 'q', 'u', 'i', 'z', ' ', 'U', 'R', 'L', '>'] v = v :=
  pyReplace_self (by decide)

theorem substSelf2 :
    ∀ v, pyReplace (['<', 't', 'h', 'e', ' ', 'q', 'u', 'i', 'z', ' ', 'U', 'R', 'L', ' ', 'y', 'o', 'u', ' ', 'f', 'e', 't', 'c', 'h', 'e', 'd', '>'] : List Char) ['<', 't', 'h', 'e', ' ', 'q', 'u', 'i', 'z', ' ', 'U', 'R', 'L', ' ', 'y', 'o', 'u', ' ', 'f', 'e', 't', 'c', 'h', 'e', 'd', '>'] v = v :=
  pyReplace_self (by decide)

theorem substSelf3 :
    ∀ v, pyReplace (['<', 'q', 'u', 'i', 'z', ' ', 'u', 'r', 'l', '>'] : List Char) ['<', 'q', 'u', 'i', 'z', ' ', 'u', 'r', 'l', '>'] v = v :=
  pyReplace_self (by decide)

theorem substSelf4 :
    ∀ v, pyReplace (['<', 'q', 'u', 'i', 'z', '_', 'u', 'r', 'l', '>'] : List Char) ['<', 'q', 'u', 'i', 'z', '_', 'u', 'r', 'l', '>'] v = v :=
  pyReplace_self (by decide)

theorem substSelf5 :
    ∀ v, pyReplace (['Y', 'O', 'U', 'R', '_', 'S', 'T', 'A', 'R', 'T', '_', 'U', 'R', 'L', '_', 'H', 'E', 'R', 'E'] : List Char) ['Y', 'O', 'U', 'R', '_', 'S', 'T', 'A', 'R', 'T', '_', 'U', 'R', 'L', '_', 'H', 'E', 'R', 'E'] v = v :=
  pyReplace_self (by decide)

theorem substSelf6 :
    ∀ v, pyReplace (['h', 't', 't', 'p', 's', ':', '/', '/', 'e', 'x', 'a', 'm', 'p', 'l', 'e', '.', 'c', 'o', 'm', '/', 'q', 'u', 'i', 'z'] : List Char) ['h', 't', 't', 'p', 's', ':', '/', '/', 'e', 'x', 'a', 'm', 'p', 'l', 'e', '.', 'c', 'o', 'm', '/', 'q', 'u', 'i', 'z'] v = v :=
  pyReplace_self (by decide)

theorem substSelf7 :
    ∀ v, pyReplace (['<', 's', 'u', 'b', 'm', 'i', 't', ' ', 'u', 'r', 'l', '>'] : List Char) ['<', 's', 'u', 'b', 'm', 'i', 't', ' ', 'u', 'r', 'l', '>'] v = v :=
  pyReplace_self (by decide)

theorem substSelf8 :
    ∀ v, pyReplace (['<', 't', 'h', 'e', ' ', 'q', 'u', 'i', 'z', ' ', 's', 'u', 'b', 'm', 'i', 's', 's', 'i', 'o', 'n', ' ', 'U', 'R', 'L', '>'] : List Char) ['<', 't', 'h', 'e', ' ', 'q', 'u', 'i', 'z', ' ', 's', 'u', 'b', 'm', 'i', 's', 's', 'i', 'o', 'n', ' ', 'U', 'R', 'L', '>'] v = v :=
  pyReplace_self (by decide)

theorem substNil8 :
    ∀ v, pyReplace ([] : List Char) ['<', 't', 'h', 'e', ' ', 'q', 'u', 'i', 'z', ' ', 's', 'u', 'b', 'm', 'i', 's', 's', 'i', 'o', 'n', ' ', 'U', 'R', 'L', '>'] v = [] :=
  fun v => pyReplace_eq_self v (by decide)

/-- Unfolding `repair_code` to its character-list form. -/
theorem repair_code_data (c u : String) :
    (repair_code c u).data = repairL c.data u.data := by
  rw [repair_code]

set_option maxHeartbeats 1600000 in
/-- C5 (amended): provided the target URL contains no placeholder token and
the substitution pass itself leaves no token behind (which the code does not
guarantee, as the counterexample shows), the final output of `repair_code`
contains zero occurrences of the placeholder tokens; moreover the
substitution pass maps each quiz-URL token to the target URL and each
submission-URL token to the empty string. -/
theorem c5_placeholders_removed (c u : String)
    (hu : tokenFree u.data = true)
    (hsub : tokenFree (substPlaceholders u.data (preRepair c.data)) = true) :
    tokenFree (repair_code c u).data = true ∧
      substPlaceholders u.data "<the quiz URL>".data = u.data ∧
      substPlaceholders u.data "<the quiz URL you fetched>".data = u.data ∧
      substPlaceholders u.data "<quiz url>".data = u.data ∧
      substPlaceholders u.data "<quiz_url>".data = u.data ∧
      substPlaceholders u.data "YOUR_START_URL_HERE".data = u.data ∧
      substPlaceholders u.data "https://example.com/quiz".data = u.data ∧
      substPlaceholders u.data "<submit url>".data = [] ∧
      substPlaceholders u.data "<the quiz submission URL>".data = [] := by
  have hu1 : ∀ v, pyReplace u.data (['<', 't', 'h', 'e', ' ', 'q', 'u', 'i', 'z', ' ', 'U', 'R', 'L', '>'] : List Char) v = u.data :=
    fun v => pyReplace_eq_self v (tokenFree_spec hu "<the quiz URL>".data (by decide))
  have hu2 : ∀ v, pyReplace u.data (['<', 't', 'h', 'e', ' ', 'q', 'u', 'i', 'z', ' ', 'U', 'R', 'L', ' ', 'y', 'o', 'u', ' ', 'f', 'e', 't', 'c', 'h', 'e', 'd', '>'] : List Char) v = u.data :=
    fun v => pyReplace_eq_self v (tokenFree_spec hu "<the quiz URL you fetched>".data (by decide))
  have hu3 : ∀ v, pyReplace u.data (['<', 'q', 'u', 'i', 'z', ' ', 'u', 'r', 'l', '>'] : List Char) v = u.data :=
    fun v => pyReplace_eq_self v (tokenFree_spec hu "<quiz url>".data (by decide))
  have hu4 : ∀ v, pyReplace u.data (['<', 'q', 'u', 'i', 'z', '_', 'u', 'r', 'l', '>'] : List Char) v = u.data :=
    fun v => pyReplace_eq_self v (tokenFree_spec hu "<quiz_url>".data (by decide))
  have hu5 : ∀ v, pyReplace u.data (['Y', 'O', 'U', 'R', '_', 'S', 'T', 'A', 'R', 'T', '_', 'U', 'R', 'L', '_', 'H', 'E', 'R', 'E'] : List Char) v = u.data :=
    fun v => pyReplace_eq_self v (tokenFree_spec hu "YOUR_START_URL_HERE".data (by decide))
  have hu6 : ∀ v, pyReplace u.data (['h', 't', 't', 'p', 's', ':', '/', '/', 'e', 'x', 'a', 'm', 'p', 'l', 'e', '.', 'c', 'o', 'm', '/', 'q', 'u', 'i', 'z'] : List Char) v = u.data :=
    fun v => pyReplace_eq_self v (tokenFree_spec hu "https://example.com/quiz".data (by decide))
  have hu7 : ∀ v, pyReplace u.data (['<', 's', 'u', 'b', 'm', 'i', 't', ' ', 'u', 'r', 'l', '>'] : List Char) v = u.data :=
    fun v => pyReplace_eq_self v (tokenFree_spec hu "<submit url>".data (by decide))
  have hu8 : ∀ v, pyReplace u.data (['<', 't', 'h', 'e', ' ', 'q', 'u', 'i', 'z', ' ', 's', 'u', 'b', 'm', 'i', 's', 's', 'i', 'o', 'n', ' ', 'U', 'R', 'L', '>'] : List Char) v = u.data :=
    fun v => pyReplace_eq_self v (tokenFree_spec hu "<the quiz submission URL>".data (by decide))
  refine ⟨?_, ?_, ?_, ?_, ?_, ?_, ?_, ?_, ?_⟩
  · rw [repair_code_data, repairL]
    exact finishRepair_tokenFree hsub
  all_goals
    simp only [substPlaceholders, repairPh, List.foldl, substId21, substId31, substId32, substId41, substId42, substId43, substId51, substId52, substId53, substId54, substId61, substId62, substId63, substId64, substId65, substId71, substId72, substId73, substId74, substId75, substId76, substId81, substId82, substId83, substId84, substId85, substId86, substId87, substSelf1, substSelf2, substSelf3, substSelf4, substSelf5, substSelf6, substSelf7, substSelf8, substNil8, hu1, hu2, hu3, hu4, hu5, hu6, hu7, hu8]

set_option maxRecDepth 80000 in
set_option maxHeartbeats 1600000 in
/-- Closed instance for C5: a fragment carrying a quiz-URL placeholder and an
ordinary target URL; the repaired output is token-free and the substitution
pass maps the placeholder to the URL. -/
theorem c5_placeholders_removed_witness :
    tokenFree (repair_code "url = '<quiz url>'" "http://quiz.example/1").data = true ∧
      substPlaceholders "http://quiz.example/1".data "<quiz url>".data
        = "http://quiz.example/1".data := by
  have h := c5_placeholders_removed "url = '<quiz url>'" "http://quiz.example/1"
    (by decide) (by decide)
  exact ⟨h.1, h.2.2.2.1⟩

/-! ## The extractor claims (C4, C6, C7) -/

/-- If all parse failures are `SyntaxError`, the block filter returns
normally. -/
theorem filterValid_ok {parse : String → AstResult}
    (hsafe : ∀ s m, parse s ≠ .otherError m) :
    ∀ bs, ∃ vs, filterValidBlocks parse bs = .ok vs := by
  intro bs
  induction bs with
  | nil => exact ⟨[], rfl⟩
  | cons b bs ih =>
    obtain ⟨vs, hvs⟩ := ih
    cases hp : parse (stripS b) with
    | parsed =>
      exact ⟨stripS b :: vs, by simp [filterValidBlocks, validate_python, hp, hvs]⟩
    | syntaxError m n =>
      exact ⟨vs, by simp [filterValidBlocks, validate_python, hp, hvs]⟩
    | otherError m => exact absurd hp (hsafe _ m)

/-- Every fragment the block filter returns was validated. -/
theorem filterValid_sound {parse : String → AstResult} :
    ∀ bs vs, filterValidBlocks parse bs = .ok vs →
      (∀ f ∈ vs, validate_python parse f = .ok true) ∧ vs.length ≤ bs.length := by
  intro bs
  induction bs with
  | nil =>
    intro vs h
    simp only [filterValidBlocks] at h
    injection h with h
    subst h
    exact ⟨fun f hf => absurd hf (List.not_mem_nil f), by simp⟩
  | cons b bs ih =>
    intro vs h
    simp only [filterValidBlocks] at h
    cases hv : validate_python parse (stripS b) with
    | error e => rw [hv] at h; cases h
    | ok tv =>
      rw [hv] at h
      cases tv with
      | true =>
        cases hr : filterValidBlocks parse bs with
        | error e => rw [hr] at h; cases h
        | ok rest =>
          rw [hr] at h
          injection h with h
          subst h
          obtain ⟨hall, hlen⟩ := ih rest hr
          refine ⟨?_, by simpa using Nat.succ_le_succ hlen⟩
          intro f hf
          rcases List.mem_cons.mp hf with hf | hf
          · exact hf ▸ hv
          · exact hall f hf
      | false =>
        obtain ⟨hall, hlen⟩ := ih vs h
        exact ⟨hall, Nat.le_succ_of_le hlen⟩

/-- C4 (counterexample): `extract_valid_code_blocks` can raise.  CPython
3.11's `ast.parse` raises `UnicodeEncodeError` — not a `SyntaxError` — on a
source containing a lone surrogate code point, and `validate_python` catches
only `SyntaxError`; on such an input (zero fenced regions, whole text not
parseable) the extractor raises instead of returning the empty sequence. -/
theorem c4_extract_raises_cex :
    fencedBlocks loneSurrogate = [] ∧
      extract_valid_code_blocks astParseSurrogate loneSurrogate
        = .error ⟨"'utf-8' codec can't encode character '\\ud800' in position 0: surrogates not allowed"⟩ := by
  exact ⟨by decide, by decide⟩

/-- C4 (amended): provided the parser signals every failure as a
`SyntaxError` (no `ValueError`/`UnicodeEncodeError`/`MemoryError` class
failures), `extract_valid_code_blocks` always returns normally, and on an
input with zero fenced regions whose whole text does not parse it returns
the empty sequence. -/
theorem c4_extract_empty_no_raise (parse : String → AstResult)
    (hsafe : ∀ s m, parse s ≠ .otherError m) (text : String) :
    (∃ frags, extract_valid_code_blocks parse text = .ok frags) ∧
      (fencedBlocks text = [] → parse text ≠ .parsed →
        extract_valid_code_blocks parse text = .ok []) := by
  constructor
  · obtain ⟨vs, hvs⟩ := filterValid_ok hsafe (fencedBlocks text)
    unfold extract_valid_code_blocks
    rw [hvs]
    by_cases he : vs.isEmpty
    · cases hp : parse text with
      | parsed => exact ⟨[text], by simp [he, validate_python, hp]⟩
      | syntaxError m n => exact ⟨[], by simp [he, validate_python, hp]⟩
      | otherError m => exact absurd hp (hsafe _ m)
    · exact ⟨vs, by simp [he]⟩
  · intro hnf hnp
    unfold extract_valid_code_blocks
    rw [hnf]
    cases hp : parse text with
    | parsed => exact absurd hp hnp
    | syntaxError m n => simp [filterValidBlocks, validate_python, hp]
    | otherError m => exact absurd hp (hsafe _ m)

/-- Closed instance for C4: `toyParse` fails only with `SyntaxError`; on a
fence-free, non-parsing input the extractor returns the empty sequence
without raising. -/
theorem c4_extract_empty_no_raise_witness :
    fencedBlocks "no fences here(" = [] ∧
      toyParse "no fences here(" ≠ .parsed ∧
      extract_valid_code_blocks toyParse "no fences here(" = .ok [] := by
  have hsafe : ∀ s m, toyParse s ≠ .otherError m := by
    intro s m
    unfold toyParse
    split <;> simp
  refine ⟨by decide, by decide, ?_⟩
  exact (c4_extract_empty_no_raise toyParse hsafe "no fences here(").2
    (by decide) (by decide)

/-- C6 (counterexample): an input with two fenced regions, one of which does
not parse, yields a single returned fragment — the failing region is
discarded (and `validate_python` returns only a `Bool`, so its message and
line number are discarded too), contradicting one-fragment-per-region. -/
theorem c6_invalid_block_discarded_cex :
    (fencedBlocks "```python\nx = (1)\n```\n```python\ndef f(:\n```").length = 2 ∧
      extract_valid_code_blocks toyParse
          "```python\nx = (1)\n```\n```python\ndef f(:\n```"
        = .ok ["x = (1)"] := by
  exact ⟨by decide, by decide⟩

/-- C6 (amended): the extractor keeps only the fenced regions whose stripped
content parses (or the whole text as fallback): every returned fragment
validates successfully, and the number of returned fragments never exceeds
the number of fenced regions (or one, in the fallback case).  Regions that
fail to parse contribute nothing and no diagnostic is recorded. -/
theorem c6_only_valid_blocks (parse : String → AstResult) (text : String)
    (frags : List String)
    (h : extract_valid_code_blocks parse text = .ok frags) :
    (∀ f ∈ frags, validate_python parse f = .ok true) ∧
      frags.length ≤ max (fencedBlocks text).length 1 := by
  unfold extract_valid_code_blocks at h
  cases hf : filterValidBlocks parse (fencedBlocks text) with
  | error e => simp [hf] at h
  | ok valid =>
    simp only [hf] at h
    by_cases he : valid.isEmpty
    · simp only [he, if_true] at h
      cases hv : validate_python parse text with
      | error e => simp [hv] at h
      | ok tv =>
        cases tv with
        | true =>
          simp only [hv] at h
          injection h with h
          subst h
          refine ⟨?_, by simp⟩
          intro f hfm
          have : f = text := List.mem_singleton.mp hfm
          exact this ▸ hv
        | false =>
          simp only [hv] at h
          injection h with h
          subst h
          exact ⟨fun f hfm => absurd hfm (List.not_mem_nil f), by simp⟩
    · simp only [he, if_false, Bool.false_eq_true] at h
      injection h with h
      subst h
      obtain ⟨hall, hlen⟩ := filterValid_sound (fencedBlocks text) valid hf
      exact ⟨hall, le_trans hlen (le_max_left _ _)⟩

/-- Closed instance for C6: the amended theorem applied at the two-region
input of the counterexample. -/
theorem c6_only_valid_blocks_witness :
    (∀ f ∈ ["x = (1)"], validate_python toyParse f = .ok true) ∧
      (["x = (1)"] : List String).length
        ≤ max (fencedBlocks "```python\nx = (1)\n```\n```python\ndef f(:\n```").length 1 :=
  c6_only_valid_blocks toyParse "```python\nx = (1)\n```\n```python\ndef f(:\n```"
    ["x = (1)"] (by decide)

/-- C7: on an input with exactly one fenced region whose stripped content
parses, the extractor returns exactly that region's content stripped of
leading and trailing whitespace. -/
theorem c7_single_valid_block (parse : String → AstResult) (text b : String)
    (h1 : fencedBlocks text = [b])
    (h2 : validate_python parse (stripS b) = .ok true) :
    extract_valid_code_blocks parse text = .ok [stripS b] := by
  unfold extract_valid_code_blocks
  rw [h1]
  simp [filterValidBlocks, h2]

/-- Closed instance for C7 at a concrete single-region input. -/
theorem c7_single_valid_block_witness :
    fencedBlocks "pre ```python\nx = (1)\n``` post" = ["x = (1)"] ∧
      validate_python toyParse (stripS "x = (1)") = .ok true ∧
      extract_valid_code_blocks toyParse "pre ```python\nx = (1)\n``` post"
        = .ok [stripS "x = (1)"] :=
  ⟨by decide, by decide,
    c7_single_valid_block toyParse "pre ```python\nx = (1)\n``` post" "x = (1)"
      (by decide) (by decide)⟩

set_option maxRecDepth 80000 in
/-- C5 (counterexample): blanking a submission-URL placeholder can splice the
surrounding characters into a fresh quiz-URL placeholder, which survives to
the output: the repaired fragment still contains the token `<quiz url>`
even though the target URL is entirely ordinary. -/
theorem c5_placeholder_remains_cex :
    occursIn "<quiz url>".data
      (repair_code "<qu<submit url>iz url>" "http://quiz.example/1").data = true := by
  decide

/-! ## Idempotence of the repair pipeline on its fixed points (C2)

Each transformation of `repair_code` is the identity on text that already
lacks the pattern it rewrites; the lemmas below establish this for every
stage, giving idempotence of the whole pipeline on outputs satisfying the
fixed-point side conditions. -/

theorem dropWhile_twice (p : Char → Bool) : ∀ l : List Char,
    (l.dropWhile p).dropWhile p = l.dropWhile p := by
  intro l
  induction l with
  | nil => rfl
  | cons c r ih =>
    by_cases hc : p c = true
    · rw [List.dropWhile_cons, if_pos hc]
      exact ih
    · rw [List.dropWhile_cons, if_neg hc, List.dropWhile_cons, if_neg hc]

theorem dropWhile_pfx_self {p : Char → Bool} {l l' : List Char}
    (hpre : l' <+: l) (h : l.dropWhile p = l) : l'.dropWhile p = l' := by
  cases l' with
  | nil => rfl
  | cons c r =>
    have hc : p c = false := by
      obtain ⟨w, hw⟩ := hpre
      cases hcc : p c
      · rfl
      · exfalso
        rw [← hw, List.cons_append, List.dropWhile_cons, if_pos hcc] at h
        have hlen := congrArg List.length h
        have hle : ((r ++ w).dropWhile p).length ≤ (r ++ w).length :=
          (List.dropWhile_suffix p).sublist.length_le
        simp at hlen hle
        omega
    rw [List.dropWhile_cons, if_neg (by simp [hc])]

theorem pyStrip_idem (s : List Char) : pyStrip (pyStrip s) = pyStrip s := by
  have hpre := trimEnd_prefix (trimStart s)
  have h1 : trimStart (pyStrip s) = pyStrip s := by
    apply dropWhile_pfx_self hpre
    exact dropWhile_twice isWsChar s
  have hrev : (pyStrip s).reverse = List.dropWhile isWsChar (trimStart s).reverse := by
    show (trimEnd (trimStart s)).reverse = _
    rw [trimEnd, List.reverse_reverse]
  have h2 : trimEnd (pyStrip s) = pyStrip s := by
    show ((pyStrip s).reverse.dropWhile isWsChar).reverse = pyStrip s
    rw [hrev, dropWhile_twice isWsChar (trimStart s).reverse, ← hrev, List.reverse_reverse]
  show trimEnd (trimStart (pyStrip s)) = pyStrip s
  rw [h1, h2]

theorem pyStrip_finishRepair (s : List Char) :
    pyStrip (finishRepair s) = finishRepair s := by
  rw [finishRepair]
  exact pyStrip_idem _

theorem pyStrip_eq_parts {y : List Char} (h : pyStrip y = y) :
    trimStart y = y ∧ trimEnd y = y := by
  have hsuf : trimStart y <:+ y := List.dropWhile_suffix isWsChar
  have hpre := trimEnd_prefix (trimStart y)
  have hlen1 : (trimStart y).length ≤ y.length := hsuf.sublist.length_le
  have hlen2 : (trimEnd (trimStart y)).length ≤ (trimStart y).length := hpre.sublist.length_le
  have hlen0 : (trimEnd (trimStart y)).length = y.length := by
    rw [show trimEnd (trimStart y) = pyStrip y from rfl, h]
  have hts : trimStart y = y := hsuf.sublist.eq_of_length (by omega)
  refine ⟨hts, ?_⟩
  have h' : trimEnd (trimStart y) = y := h
  rw [hts] at h'
  exact h'

theorem no_trailing_nl {y : List Char} (h : trimEnd y = y) :
    ∀ r, y = r ++ ['\n'] → False := by
  intro r h0
  subst h0
  have hrev : (r ++ ['\n']).reverse = '\n' :: r.reverse := by simp
  have h2 : trimEnd (r ++ ['\n']) = ((r ++ ['\n']).reverse.dropWhile isWsChar).reverse := rfl
  rw [hrev] at h2
  rw [show List.dropWhile isWsChar ('\n' :: r.reverse) = List.dropWhile isWsChar r.reverse from by
    rw [List.dropWhile_cons, if_pos (by decide)]] at h2
  rw [h] at h2
  have hlen := congrArg List.length h2
  have hle : (r.reverse.dropWhile isWsChar).length ≤ r.reverse.length :=
    (List.dropWhile_suffix isWsChar).sublist.length_le
  simp at hlen hle
  omega

theorem plainText_spec {s : List Char} (h : plainText s = true) :
    (∀ a ∈ s, ¬ a = '\t') ∧ (∀ a ∈ s, isNlChar a = true → a = '\n') := by
  rw [plainText, List.all_eq_true] at h
  refine ⟨fun a ha => ?_, fun a ha hnl => ?_⟩
  · have := h a ha
    simp only [Bool.and_eq_true, Bool.not_eq_true', decide_eq_false_iff_not] at this
    exact this.1
  · have := h a ha
    simp only [Bool.and_eq_true, Bool.or_eq_true, Bool.not_eq_true',
      decide_eq_true_eq, decide_eq_false_iff_not] at this
    rcases this.2 with h' | h'
    · rw [hnl] at h'
      exact absurd h' (by simp)
    · exact h'

theorem slA_cons_nl {c : Char} (rest cur : List Char) (hr : ¬ c = '\r')
    (hn : isNlChar c = true) :
    slA false (c :: rest) cur = cur.reverse :: slA false rest [] := by
  simp only [slA]
  rw [if_neg (by simp), if_neg hr, if_pos hn]

theorem slA_cons_other {c : Char} (rest cur : List Char) (hr : ¬ c = '\r')
    (hn : ¬ isNlChar c = true) :
    slA false (c :: rest) cur = slA false rest (c :: cur) := by
  simp only [slA]
  rw [if_neg (by simp), if_neg hr, if_neg hn]

theorem slA_ne_nil : ∀ (s cur : List Char),
    (∀ a ∈ s, isNlChar a = true → a = '\n') →
    (s ≠ [] ∨ cur ≠ []) → slA false s cur ≠ [] := by
  intro s
  induction s with
  | nil =>
    intro cur hp hne
    rcases hne with h | h
    · exact absurd rfl h
    · simp only [slA]
      rw [if_neg (by simp [List.isEmpty_iff, h])]
      simp
  | cons c rest ih =>
    intro cur hp hne
    by_cases hr : c = '\r'
    · have := hp c (by simp) (by rw [hr]; decide)
      rw [hr] at this
      exact absurd this (by decide)
    · by_cases hn : isNlChar c = true
      · rw [slA_cons_nl rest cur hr hn]
        simp
      · rw [slA_cons_other rest cur hr hn]
        exact ih (c :: cur) (fun a ha h => hp a (by simp [ha]) h) (Or.inr (by simp))

theorem joinNl_slA : ∀ (s cur : List Char),
    (∀ a ∈ s, isNlChar a = true → a = '\n') →
    (∀ r : List Char, s = r ++ ['\n'] → False) →
    joinNl (slA false s cur) = cur.reverse ++ s := by
  intro s
  induction s with
  | nil =>
    intro cur _ _
    simp only [slA]
    by_cases hc : cur.isEmpty = true
    · rw [if_pos hc]
      have : cur = [] := by simpa [List.isEmpty_iff] using hc
      simp [this, joinNl]
    · rw [if_neg hc]
      simp [joinNl]
  | cons c rest ih =>
    intro cur hp hlast
    by_cases hr : c = '\r'
    · have := hp c (by simp) (by rw [hr]; decide)
      rw [hr] at this
      exact absurd this (by decide)
    · by_cases hn : isNlChar c = true
      · have hc : c = '\n' := hp c (by simp) hn
        rw [slA_cons_nl rest cur hr hn]
        have hrne : rest ≠ [] := by
          intro h0
          exact hlast [] (by rw [hc, h0]; rfl)
        have hpr : ∀ a ∈ rest, isNlChar a = true → a = '\n' :=
          fun a ha => hp a (by simp [ha])
        have hlr : ∀ r, rest = r ++ ['\n'] → False := by
          intro r h0
          exact hlast (c :: r) (by rw [h0]; rfl)
        have hne := slA_ne_nil rest [] hpr (Or.inl hrne)
        cases hsl : slA false rest [] with
        | nil => exact absurd hsl hne
        | cons L Ls =>
          rw [show joinNl (cur.reverse :: L :: Ls) = cur.reverse ++ '\n' :: joinNl (L :: Ls) from rfl]
          have hrec := ih [] hpr hlr
          rw [hsl] at hrec
          rw [hrec]
          simp [hc]
      · rw [slA_cons_other rest cur hr hn]
        have hpr : ∀ a ∈ rest, isNlChar a = true → a = '\n' :=
          fun a ha => hp a (by simp [ha])
        have hlr : ∀ r, rest = r ++ ['\n'] → False := by
          intro r h0
          exact hlast (c :: r) (by rw [h0]; rfl)
        rw [ih (c :: cur) hpr hlr]
        simp

theorem joinNl_splitlines {s : List Char}
    (hp : ∀ a ∈ s, isNlChar a = true → a = '\n')
    (hl : ∀ r : List Char, s = r ++ ['\n'] → False) :
    joinNl (pySplitlines s) = s := by
  rw [pySplitlines, joinNl_slA s [] hp hl]
  rfl

theorem slA_member_mem : ∀ (s : List Char) (flag : Bool) (cur : List Char) {l : List Char},
    l ∈ slA flag s cur → ∀ a ∈ l, a ∈ cur ∨ a ∈ s := by
  intro s
  induction s with
  | nil =>
    intro flag cur l hl a ha
    simp only [slA] at hl
    split at hl
    · exact absurd hl (List.not_mem_nil l)
    · rw [List.mem_singleton] at hl
      subst hl
      exact Or.inl (List.mem_reverse.mp ha)
  | cons c rest ih =>
    intro flag cur l hl a ha
    simp only [slA] at hl
    split at hl
    · rcases ih false cur hl a ha with h' | h'
      · exact Or.inl h'
      · exact Or.inr (List.mem_cons_of_mem c h')
    · split at hl
      · rcases List.mem_cons.mp hl with rfl | hl'
        · exact Or.inl (List.mem_reverse.mp ha)
        · rcases ih true [] hl' a ha with h' | h'
          · exact absurd h' (List.not_mem_nil a)
          · exact Or.inr (List.mem_cons_of_mem c h')
      · split at hl
        · rcases List.mem_cons.mp hl with rfl | hl'
          · exact Or.inl (List.mem_reverse.mp ha)
          · rcases ih false [] hl' a ha with h' | h'
            · exact absurd h' (List.not_mem_nil a)
            · exact Or.inr (List.mem_cons_of_mem c h')
        · rcases ih false (c :: cur) hl a ha with h' | h'
          · rcases List.mem_cons.mp h' with hac | h''
            · subst hac
              exact Or.inr (List.mem_cons_self _ _)
            · exact Or.inl h''
          · exact Or.inr (List.mem_cons_of_mem c h')

theorem expandTabs_eq_self : ∀ {l : List Char}, (∀ a ∈ l, ¬ a = '\t') →
    expandTabs l = l := by
  intro l
  induction l with
  | nil => intro _; rfl
  | cons c r ih =>
    intro h
    simp only [expandTabs]
    rw [if_neg (h c (by simp)), ih (fun a ha => h a (by simp [ha]))]

theorem map_expandTabs_self : ∀ (L : List (List Char)),
    (∀ l ∈ L, expandTabs l = l) → L.map expandTabs = L := by
  intro L
  induction L with
  | nil => intro _; rfl
  | cons l ls ih =>
    intro h
    rw [List.map_cons, h l (by simp), ih (fun x hx => h x (by simp [hx]))]

theorem not_occ_of_pattern_pfx {t₁ t₂ s : List Char} (hp : t₁ <+: t₂)
    (h : occursIn t₁ s = false) : occursIn t₂ s = false := by
  cases ho : occursIn t₂ s
  · rfl
  · have hcc := occursIn_of_pattern_prefix hp ho
    rw [h] at hcc
    exact Bool.noConfusion hcc

theorem awaitSubA_eq_self : ∀ (f : Nat) (s : List Char),
    occursIn ".get(".data s = false → awaitSubA f s = s := by
  intro f
  induction f with
  | zero => intro s _; rfl
  | succ f ih =>
    intro s h
    cases s with
    | nil => rfl
    | cons c rest =>
      have hrest : occursIn ".get(".data rest = false := not_occursIn_tail h
      by_cases hc : isWsChar c = true
      · cases hm : fetchMatch rest with
        | some pr =>
          obtain ⟨rn, tl⟩ := pr
          obtain ⟨hre, hwd, rn₀, hrn⟩ := fetchMatch_some_spec hm
          have hocc : occursIn ".get(".data rest = true := by
            apply occursIn_of_eq_append (a := rn₀) (b := tl)
            rw [hre, hrn]
            simp
          rw [hrest] at hocc
          exact Bool.noConfusion hocc
        | none =>
          simp only [awaitSubA, hc, if_true, hm]
          rw [ih rest hrest]
      · have hc' : isWsChar c = false := by
          cases hcc : isWsChar c
          · rfl
          · exact absurd hcc hc
        simp only [awaitSubA, hc', Bool.false_eq_true, if_false]
        rw [ih rest hrest]

theorem awMatch_occ {s : List Char} {q : List Char × List Char × List Char × List Char}
    (h : awMatch s = some q) : occursIn ".get(".data s = true := by
  simp only [awMatch] at h
  split at h
  · split at h
    · exact Option.noConfusion h
    · cases hm : fetchMatch ((s.drop 10).dropWhile isWsChar) with
      | none =>
        simp only [hm] at h
        exact Option.noConfusion h
      | some pr =>
        obtain ⟨run, afterParen⟩ := pr
        obtain ⟨hre, hwd, rn₀, hrn⟩ := fetchMatch_some_spec hm
        have hocc1 : occursIn ".get(".data ((s.drop 10).dropWhile isWsChar) = true := by
          apply occursIn_of_eq_append (a := rn₀) (b := afterParen)
          rw [hre, hrn]
          simp
        have hs1 : (s.drop 10).dropWhile isWsChar <:+ s.drop 10 :=
          List.dropWhile_suffix isWsChar
        have hs2 : s.drop 10 <:+ s := List.drop_suffix 10 s
        obtain ⟨w, hw⟩ := hs1.trans hs2
        rw [← hw]
        exact occursIn_append_right w hocc1
  · exact Option.noConfusion h

theorem asyncWithSubA_eq_self : ∀ (f : Nat) (s : List Char),
    occursIn ".get(".data s = false → asyncWithSubA f s = s := by
  intro f
  induction f with
  | zero => intro s _; rfl
  | succ f ih =>
    intro s h
    cases s with
    | nil => rfl
    | cons c rest =>
      cases hm : awMatch (c :: rest) with
      | some q =>
        have hocc := awMatch_occ hm
        rw [h] at hocc
        exact Bool.noConfusion hocc
      | none =>
        simp only [asyncWithSubA, hm]
        rw [ih rest (not_occursIn_tail h)]

theorem preRepair_eq_self {y : List Char}
    (hf : occursIn "```".data y = false)
    (ha1 : occursIn "await await ".data y = false)
    (ha2 : occursIn "await  await".data y = false)
    (hg : occursIn ".get(".data y = false)
    (hs : pyStrip y = y) :
    preRepair y = y := by
  have e1 : pyReplace y "```python".data [] = y :=
    pyReplace_eq_self [] (not_occ_of_pattern_pfx ⟨"python".data, by decide⟩ hf)
  have e2 : pyReplace y "```".data [] = y := pyReplace_eq_self [] hf
  have e3 : pyReplace y "await await ".data "await ".data = y := pyReplace_eq_self _ ha1
  have e4 : pyReplace y "await  await".data "await ".data = y := pyReplace_eq_self _ ha2
  have e5 : awaitSub y = y := by
    rw [awaitSub]
    exact awaitSubA_eq_self y.length y hg
  have e6 : asyncWithSub y = y := by
    rw [asyncWithSub]
    exact asyncWithSubA_eq_self y.length y hg
  show asyncWithSub (awaitSub (pyReplace (pyReplace (pyStrip (pyReplace
      (pyReplace y "```python".data []) "```".data []))
      "await await ".data "await ".data) "await  await".data "await ".data)) = y
  rw [e1, e2, hs, e3, e4, e5, e6]

theorem foldl_pyReplace_eq_self (u : List Char) :
    ∀ (phs : List (List Char)) (s : List Char),
      (∀ t ∈ phs, occursIn t s = false) →
      List.foldl (fun acc ph => pyReplace acc ph u) s phs = s := by
  intro phs
  induction phs with
  | nil => intro s _; rfl
  | cons t rest ih =>
    intro s hall
    have h1 : List.foldl (fun acc ph => pyReplace acc ph u) s (t :: rest)
        = List.foldl (fun acc ph => pyReplace acc ph u) (pyReplace s t u) rest := rfl
    rw [h1, pyReplace_eq_self u (hall t (by simp))]
    exact ih s fun t' ht' => hall t' (by simp [ht'])

theorem substPlaceholders_eq_self (u : List Char) {s : List Char}
    (h : tokenFree s = true) : substPlaceholders u s = s := by
  have o1 : occursIn "<the quiz URL>".data s = false :=
    tokenFree_spec h "<the quiz URL>".data (by decide)
  have o2 : occursIn "<the quiz URL you fetched>".data s = false :=
    tokenFree_spec h "<the quiz URL you fetched>".data (by decide)
  have o3 : occursIn "<quiz url>".data s = false :=
    tokenFree_spec h "<quiz url>".data (by decide)
  have o4 : occursIn "<quiz_url>".data s = false :=
    tokenFree_spec h "<quiz_url>".data (by decide)
  have o7 : occursIn "<submit url>".data s = false :=
    tokenFree_spec h "<submit url>".data (by decide)
  have o8 : occursIn "<the quiz submission URL>".data s = false :=
    tokenFree_spec h "<the quiz submission URL>".data (by decide)
  have e0 : List.foldl (fun acc ph => pyReplace acc ph u) s repairPh = s := by
    apply foldl_pyReplace_eq_self
    intro t ht
    exact tokenFree_spec h t (List.mem_append_left _ ht)
  show pyReplace (pyReplace (pyReplace (pyReplace (pyReplace (pyReplace
      (List.foldl (fun acc ph => pyReplace acc ph u) s repairPh)
      "<the quiz URL>".data u) "<the quiz URL you fetched>".data u)
      "<quiz url>".data u) "<quiz_url>".data u)
      "<submit url>".data []) "<the quiz submission URL>".data [] = s
  rw [e0, pyReplace_eq_self u o1, pyReplace_eq_self u o2, pyReplace_eq_self u o3,
    pyReplace_eq_self u o4, pyReplace_eq_self [] o7, pyReplace_eq_self [] o8]

theorem finishRepair_eq_self {y : List Char}
    (hh : occursIn "import httpx".data y = true)
    (hr : occursIn "import re".data y = true)
    (hm : occursIn "async def main".data y = true)
    (hp : plainText y = true)
    (hs : pyStrip y = y) :
    finishRepair y = y := by
  obtain ⟨htab, hnl⟩ := plainText_spec hp
  have hts := pyStrip_eq_parts hs
  have hlast := no_trailing_nl hts.2
  have hj : joinNl (pySplitlines y) = y := joinNl_splitlines hnl hlast
  have hmap : List.map expandTabs (pySplitlines y) = pySplitlines y := by
    apply map_expandTabs_self
    intro l hl
    apply expandTabs_eq_self
    intro a ha
    rcases slA_member_mem y false [] hl a ha with h' | h'
    · exact absurd h' (List.not_mem_nil a)
    · exact htab a h'
  rw [finishRepair]
  rw [if_pos hh, if_pos hr, if_pos hm, hmap, hj, hs]

theorem repairL_fixed (u y : List Char)
    (h1 : occursIn "```".data y = false)
    (h2 : occursIn "await await ".data y = false)
    (h3 : occursIn "await  await".data y = false)
    (h4 : occursIn ".get(".data y = false)
    (h5 : tokenFree y = true)
    (h6 : occursIn "import httpx".data y = true)
    (h7 : occursIn "import re".data y = true)
    (h8 : occursIn "async def main".data y = true)
    (h9 : plainText y = true)
    (h10 : pyStrip y = y) :
    repairL y u = y := by
  rw [repairL, preRepair_eq_self h1 h2 h3 h4 h10, substPlaceholders_eq_self u h5]
  exact finishRepair_eq_self h6 h7 h8 h9 h10

/-- C2: corrected idempotence.  The spec claims `repair_code` is idempotent
for every fragment; the wait-marker regex refutes that (see the
counterexample), but idempotence does hold for every fragment whose repaired
form is a fixed point of each transformation: no fence marker, no doubled
wait marker, no fetch-call pattern `.get(`, no placeholder token, the
required imports and entry point present, and tab-free text with
newline-only line breaks.  Under those side conditions on
`repair_code c u`, a second application returns it byte-identically. -/
theorem c2_repair_idempotent_fixed (c u : String)
    (h1 : occursIn "```".data (repair_code c u).data = false)
    (h2 : occursIn "await await ".data (repair_code c u).data = false)
    (h3 : occursIn "await  await".data (repair_code c u).data = false)
    (h4 : occursIn ".get(".data (repair_code c u).data = false)
    (h5 : tokenFree (repair_code c u).data = true)
    (h6 : occursIn "import httpx".data (repair_code c u).data = true)
    (h7 : occursIn "import re".data (repair_code c u).data = true)
    (h8 : occursIn "async def main".data (repair_code c u).data = true)
    (h9 : plainText (repair_code c u).data = true) :
    repair_code (repair_code c u) u = repair_code c u := by
  have h10 : pyStrip (repair_code c u).data = (repair_code c u).data := by
    rw [repair_code_data, repairL]
    exact pyStrip_finishRepair _
  have key : (repair_code (repair_code c u) u).data = (repair_code c u).data := by
    rw [repair_code_data (repair_code c u) u]
    exact repairL_fixed u.data (repair_code c u).data h1 h2 h3 h4 h5 h6 h7 h8 h9 h10
  exact String.ext key

set_option maxRecDepth 80000 in
set_option maxHeartbeats 1600000 in
/-- Closed instance for C2: a plain fragment whose repaired form satisfies
every fixed-point side condition; repairing it a second time is the
identity. -/
theorem c2_repair_idempotent_fixed_witness :
    repair_code (repair_code "print('hi')" "http://x") "http://x"
      = repair_code "print('hi')" "http://x" :=
  c2_repair_idempotent_fixed "print('hi')" "http://x" (by decide) (by decide)
    (by decide) (by decide) (by decide) (by decide) (by decide) (by decide)
    (by decide)

end QuizPipeline
